import Mathlib

/-!
Verification development for the `sendit` traffic-generator core.

Shallow embedding conventions:
* Go `int` / `int64` become `ℤ` (or `ℕ` for quantities that are only ever
  zero-initialised and incremented, such as backoff attempt counters).
* Go `float64` arithmetic is modelled with exact rationals `ℚ`; the
  float→int64 conversion `time.Duration(x)` truncates toward zero and is
  modelled by `truncQ`.
* `time.Time` instants and `time.Duration` values are carried in
  milliseconds as `ℚ` (the backoff code only ever compares instants and
  adds millisecond delays, so the unit choice is observationally neutral).
* Go maps become functions `String → Option _`; insertion and deletion are
  pointwise updates.
* Context cancellation is an explicit boolean oracle: a `select` between a
  timer and `ctx.Done()` takes the cancellation branch exactly when the
  oracle says the context fired first.
-/

namespace Sendit

/-- `ErrorClass` from internal/ratelimit/backoff.go: categorises an HTTP
error for backoff decisions (`None`, `Transient`, `Permanent`, `Fatal`). -/
inductive ErrorClass
  | none
  | transient
  | permanent
  | fatal
deriving DecidableEq, Repr

/-- `ClassifyStatusCode` from internal/ratelimit/backoff.go lines 23–41,
translated switch-case by switch-case (Go `int` status codes become `ℤ`). -/
def ClassifyStatusCode (code : ℤ) : ErrorClass :=
  if code = 429 ∨ code = 502 ∨ code = 503 ∨ code = 504 then .transient
  else if code = 400 ∨ code = 403 ∨ code = 404 then .permanent
  else if code = 0 then .transient
  else if 200 ≤ code ∧ code < 300 then .none
  else if 500 ≤ code then .transient
  else .permanent

/-- `ClassifyError` from internal/ratelimit/backoff.go lines 44–52.  A Go
`error` value is modelled by its only observable features here: absence,
and being one of the two context sentinels. -/
inductive GoError
  | canceled
  | deadlineExceeded
  | other
deriving DecidableEq, Repr

def ClassifyError (err : Option GoError) : ErrorClass :=
  match err with
  | Option.none => .none
  | some GoError.canceled => .fatal
  | some GoError.deadlineExceeded => .fatal
  | some GoError.other => .transient

/-- Go float64→int64 conversion (`time.Duration(jittered)`): truncation
toward zero. -/
def truncQ (q : ℚ) : ℤ := if 0 ≤ q then ⌊q⌋ else ⌈q⌉

/-- `domainBackoff` from internal/ratelimit/backoff.go lines 55–59:
per-domain backoff state.  `attempts` starts at zero and is only ever
incremented, so it is embedded as `ℕ`; `nextAllowed` is an instant in
milliseconds. -/
structure DomainBackoff where
  attempts : ℕ
  nextAllowed : ℚ
deriving DecidableEq, Repr

/-- `BackoffRegistry` from internal/ratelimit/backoff.go lines 62–69.  The
Go map `domains` is a function to `Option DomainBackoff`. -/
structure BackoffRegistry where
  domains : String → Option DomainBackoff
  initialMs : ℤ
  maxMs : ℤ
  multiplier : ℚ
  maxAttempts : ℤ

/-- `NewBackoffRegistry` (backoff.go lines 72–80). -/
def NewBackoffRegistry (initialMs maxMs : ℤ) (multiplier : ℚ) (maxAttempts : ℤ) :
    BackoffRegistry :=
  { domains := fun _ => Option.none
    initialMs := initialMs
    maxMs := maxMs
    multiplier := multiplier
    maxAttempts := maxAttempts }

/-- The exponential-ceiling loop of `decorrelatedJitter` (backoff.go lines
169–176): `for i := 1; i < attempt; i++ { ceiling *= multiplier;
if ceiling > cap { ceiling = cap; break } }`, as a recursion on the
remaining iteration count. -/
def jitterCeiling (mult cap : ℚ) : ℕ → ℚ → ℚ
  | 0, c => c
  | n + 1, c =>
      let c2 := c * mult
      if c2 > cap then cap else jitterCeiling mult cap n c2

/-- `BackoffRegistry.decorrelatedJitter` (backoff.go lines 164–185).  The
call `rand.Float64()` is the explicit parameter `u ∈ [0,1)`; the result is
the delay in milliseconds (Go returns `time.Duration(jittered) *
time.Millisecond`, i.e. the truncated millisecond count). -/
def BackoffRegistry.decorrelatedJitter (r : BackoffRegistry) (attempt : ℕ) (u : ℚ) : ℤ :=
  let base : ℚ := (r.initialMs : ℚ)
  let capQ : ℚ := (r.maxMs : ℚ)
  let ceiling := jitterCeiling r.multiplier capQ (attempt - 1) base
  let jittered := base + u * (ceiling - base)
  let jclamped := if jittered > capQ then capQ else jittered
  truncQ jclamped

/-- `BackoffRegistry.RecordError` (backoff.go lines 84–100): creates the
domain entry if absent, increments `attempts`, computes the jittered
delay, sets `nextAllowed = now + delay`, and returns the delay. -/
def BackoffRegistry.RecordError (r : BackoffRegistry) (domain : String)
    (now : ℚ) (u : ℚ) : ℤ × BackoffRegistry :=
  let db := (r.domains domain).getD { attempts := 0, nextAllowed := 0 }
  let att := db.attempts + 1
  let delay := r.decorrelatedJitter att u
  (delay,
    { r with
        domains := fun d =>
          if d = domain then
            some { attempts := att, nextAllowed := now + (delay : ℚ) }
          else r.domains d })

/-- `BackoffRegistry.RecordSuccess` (backoff.go lines 103–107): deletes the
domain's state. -/
def BackoffRegistry.RecordSuccess (r : BackoffRegistry) (domain : String) :
    BackoffRegistry :=
  { r with domains := fun d => if d = domain then Option.none else r.domains d }

/-- `BackoffRegistry.Attempts` (backoff.go lines 145–155). -/
def BackoffRegistry.AttemptsOf (r : BackoffRegistry) (domain : String) : ℕ :=
  match r.domains domain with
  | Option.none => 0
  | some db => db.attempts

/-- `BackoffRegistry.MaxAttempts` (backoff.go lines 158–160). -/
def BackoffRegistry.MaxAttemptsOf (r : BackoffRegistry) : ℤ := r.maxAttempts

inductive WaitResult
  | ok
  | cancelled
deriving DecidableEq, Repr

/-- `BackoffRegistry.Wait` (backoff.go lines 112–142).  `now` is the
current instant, `ctxCancelled` says whether `ctx.Done()` fires before the
`time.After(remaining)` timer does. -/
def BackoffRegistry.Wait (r : BackoffRegistry) (domain : String) (now : ℚ)
    (ctxCancelled : Bool) : WaitResult × BackoffRegistry :=
  match r.domains domain with
  | Option.none => (.ok, r)
  | some db =>
      if db.nextAllowed - now ≤ 0 then
        if (db.attempts : ℤ) ≥ r.maxAttempts then
          (.ok, { r with
                   domains := fun d =>
                     if d = domain then Option.none else r.domains d })
        else (.ok, r)
      else
        if ctxCancelled then (.cancelled, r) else (.ok, r)

/-! ### Hostname derivation (engine hostname + the net/url host pipeline)

`hostname` (engine file, lines 287–297) calls Go's `net/url.Parse` and
`URL.Hostname()`.  The standard-library host-extraction pipeline is
embedded below on `List Char`, following `net/url` (Go 1.21):
`Parse` → `parse` (CTL check, `getScheme`, query cut, opaque/first-segment
checks, authority extraction, `parseAuthority`, `parseHost`, `setPath`)
and `URL.Hostname` (`splitHostPort`).  Bytes of a Go string are modelled
one `Char` per byte; percent-decoding of a byte `v` produces
`Char.ofNat v`. -/

def isCTL (c : Char) : Bool := decide (c.toNat < 0x20) || decide (c.toNat = 0x7f)

/-- Go compares bytes numerically (`'a' <= c && c <= 'z'`); byte ranges
are expressed on `Char.toNat`. -/
def isAlphaChar (c : Char) : Bool :=
  (decide (97 ≤ c.toNat) && decide (c.toNat ≤ 122))
    || (decide (65 ≤ c.toNat) && decide (c.toNat ≤ 90))

def isDigitChar (c : Char) : Bool := decide (48 ≤ c.toNat) && decide (c.toNat ≤ 57)

def isHexDigitChar (c : Char) : Bool :=
  isDigitChar c || (decide (97 ≤ c.toNat) && decide (c.toNat ≤ 102))
    || (decide (65 ≤ c.toNat) && decide (c.toNat ≤ 70))

/-- `unhex` (net/url). -/
def unhexVal (c : Char) : ℕ :=
  if isDigitChar c then c.toNat - 48
  else if decide (97 ≤ c.toNat) && decide (c.toNat ≤ 102) then c.toNat - 97 + 10
  else c.toNat - 65 + 10

/-- `getScheme` (net/url): scan for `scheme:`.  The accumulator plays
`rawURL[:i]`; `acc = []` is Go's `i == 0`.  `none` models the
"missing protocol scheme" error. -/
def getSchemeAux (orig : List Char) (acc : List Char) :
    List Char → Option (List Char × List Char)
  | [] => some ([], orig)
  | c :: cs =>
      if isAlphaChar c then getSchemeAux orig (acc ++ [c]) cs
      else if isDigitChar c || c = '+' || c = '-' || c = '.' then
        if acc.isEmpty then some ([], orig) else getSchemeAux orig (acc ++ [c]) cs
      else if c = ':' then
        if acc.isEmpty then Option.none else some (acc, cs)
      else some ([], orig)

def getScheme (s : List Char) : Option (List Char × List Char) :=
  getSchemeAux s [] s

/-- Split a list at the LAST occurrence of `ch` (Go `strings.LastIndex`),
returning the parts strictly before and after it. -/
def splitAtLast (ch : Char) : List Char → Option (List Char × List Char)
  | [] => Option.none
  | c :: cs =>
      match splitAtLast ch cs with
      | some (pre, post) => some (c :: pre, post)
      | Option.none => if c = ch then some ([], cs) else Option.none

/-- Split a list at the FIRST occurrence of the byte sequence `%25`
(Go `strings.Index(host, "%25")` used for IPv6 zone identifiers); the
suffix keeps the `%25`. -/
def beginsPct25 : List Char → Bool
  | '%' :: '2' :: '5' :: _ => true
  | _ => false

def splitAtPct25 : List Char → Option (List Char × List Char)
  | [] => Option.none
  | c :: cs =>
      if beginsPct25 (c :: cs) then some ([], c :: cs)
      else (splitAtPct25 cs).map (fun p => (c :: p.1, p.2))

/-- `validOptionalPort` (net/url): empty, or `:` followed by digits only. -/
def validOptionalPort : List Char → Bool
  | [] => true
  | ':' :: rest => rest.all isDigitChar
  | _ => false

/-- `unescape(s, encodeHost)` (net/url): `%XX` escapes must be well formed,
and in host mode any escape of an ASCII byte other than `%25` is rejected
(`unhex(s[i+1]) < 8 && s[i:i+3] != "%25"`). -/
def unescapeHost : List Char → Option (List Char)
  | [] => some []
  | c :: cs =>
      if c = '%' then
        match cs with
        | a :: b :: rest =>
            if isHexDigitChar a && isHexDigitChar b then
              if unhexVal a * 16 + unhexVal b < 0x80 ∧ ¬(a = '2' ∧ b = '5') then
                Option.none
              else
                (unescapeHost rest).map
                  (fun t => Char.ofNat (unhexVal a * 16 + unhexVal b) :: t)
            else Option.none
        | _ => Option.none
      else (unescapeHost cs).map (fun t => c :: t)

/-- `¬shouldEscape(v, encodeHost)` (net/url): alphanumerics, the
unreserved marks `-._~`, and the host-allowed sub-delims
`!$&'()*+,;=:[]<>"`. -/
def isHostUnreservedByte (v : ℕ) : Bool :=
  (decide (48 ≤ v) && decide (v ≤ 57)) || (decide (65 ≤ v) && decide (v ≤ 90))
    || (decide (97 ≤ v) && decide (v ≤ 122))
    || decide (v = 45) || decide (v = 95) || decide (v = 46) || decide (v = 126)
    || decide (v = 33) || decide (v = 36) || decide (v = 38) || decide (v = 39)
    || decide (v = 40) || decide (v = 41) || decide (v = 42) || decide (v = 43)
    || decide (v = 44) || decide (v = 59) || decide (v = 61) || decide (v = 58)
    || decide (v = 91) || decide (v = 93) || decide (v = 60) || decide (v = 62)
    || decide (v = 34)

/-- `unescape(s, encodeZone)` (net/url): an escape passes iff it is `%25`,
an escaped space, or a byte that needs no host escaping. -/
def unescapeZone : List Char → Option (List Char)
  | [] => some []
  | c :: cs =>
      if c = '%' then
        match cs with
        | a :: b :: rest =>
            if isHexDigitChar a && isHexDigitChar b then
              if ¬(a = '2' ∧ b = '5') ∧ unhexVal a * 16 + unhexVal b ≠ 32 ∧
                  isHostUnreservedByte (unhexVal a * 16 + unhexVal b) = false then
                Option.none
              else
                (unescapeZone rest).map
                  (fun t => Char.ofNat (unhexVal a * 16 + unhexVal b) :: t)
            else Option.none
        | _ => Option.none
      else (unescapeZone cs).map (fun t => c :: t)

/-- Well-formedness of percent escapes alone (the only error source of
`unescape` in the `encodePath`, `encodeFragment` and `encodeUserPassword`
modes used by `setPath`, `setFragment` and `parseAuthority`). -/
def escapesWellFormed : List Char → Bool
  | [] => true
  | c :: cs =>
      if c = '%' then
        match cs with
        | a :: b :: rest => isHexDigitChar a && isHexDigitChar b && escapesWellFormed rest
        | _ => false
      else escapesWellFormed cs

/-- `validUserinfo` (net/url). -/
def validUserinfoChar (c : Char) : Bool :=
  isAlphaChar c || isDigitChar c
    || c = '-' || c = '.' || c = '_' || c = ':' || c = '~' || c = '!' || c = '$'
    || c = '&' || c = '\'' || c = '(' || c = ')' || c = '*' || c = '+' || c = ','
    || c = ';' || c = '=' || c = '%' || c = '@'

/-- `parseHost` (net/url): bracketed hosts must contain `]` and carry a
valid optional port after it, with `%25`-zone contents unescaped in zone
mode; non-bracketed hosts must have a valid optional port after the last
`:`; everything is unescaped in host mode.  The returned host still
carries brackets and port (stripped later by `Hostname`). -/
def parseHost (host : List Char) : Option (List Char) :=
  if host.head? = some '[' then
    match splitAtLast ']' host with
    | Option.none => Option.none
    | some (pre, post) =>
        if validOptionalPort post then
          match splitAtPct25 pre with
          | some (zpre, zsuf) =>
              match unescapeHost zpre, unescapeZone zsuf, unescapeHost (']' :: post) with
              | some h1, some h2, some h3 => some (h1 ++ h2 ++ h3)
              | _, _, _ => Option.none
          | Option.none => unescapeHost host
        else Option.none
  else
    match splitAtLast ':' host with
    | some (_, post) =>
        if post.all isDigitChar then unescapeHost host else Option.none
    | Option.none => unescapeHost host

/-- `parseAuthority` (net/url): split at the last `@`; parse the host
part; validate and unescape the userinfo. -/
def parseAuthorityHost (authority : List Char) : Option (List Char) :=
  match splitAtLast '@' authority with
  | Option.none => parseHost authority
  | some (userinfo, hostpart) =>
      match parseHost hostpart with
      | Option.none => Option.none
      | some h =>
          if userinfo.all validUserinfoChar && escapesWellFormed userinfo then some h
          else Option.none

/-- `strings.HasPrefix(rest, "/")` and friends. -/
def begins1Slash (l : List Char) : Bool := decide (l.take 1 = ['/'])

def begins2Slash (l : List Char) : Bool := decide (l.take 2 = ['/', '/'])

def begins3Slash (l : List Char) : Bool := decide (l.take 3 = ['/', '/', '/'])

/-- `parse(u, viaRequest=false)` (net/url), restricted to the `Host`
field: CTL check, scheme split, query cut, opaque early return,
first-path-segment colon check, authority extraction and `setPath`'s
escape well-formedness check.  `none` models a parse error. -/
def parseNoFrag (u : List Char) : Option (List Char) :=
  if u.any isCTL then Option.none
  else
    match getScheme u with
    | Option.none => Option.none
    | some (scheme, rest0) =>
        let rest := rest0.takeWhile (fun c => c != '?')
        if begins1Slash rest then
          if (scheme ≠ [] ∨ begins3Slash rest = false) ∧ begins2Slash rest = true then
            let afterTwo := rest.drop 2
            let authority := afterTwo.takeWhile (fun c => c != '/')
            let pathRest := afterTwo.dropWhile (fun c => c != '/')
            match parseAuthorityHost authority with
            | Option.none => Option.none
            | some h => if escapesWellFormed pathRest then some h else Option.none
          else
            if escapesWellFormed rest then some [] else Option.none
        else
          if scheme ≠ [] then some []
          else if (rest.takeWhile (fun c => c != '/')).contains ':' then Option.none
          else if escapesWellFormed rest then some [] else Option.none

/-- `url.Parse` (net/url), restricted to the `Host` field: cut the
fragment at the first `#`, run `parse` on the rest, then `setFragment`
(whose only error source is a malformed escape). -/
def urlHost (rawURL : List Char) : Option (List Char) :=
  let u := rawURL.takeWhile (fun c => c != '#')
  let frag := (rawURL.dropWhile (fun c => c != '#')).drop 1
  match parseNoFrag u with
  | Option.none => Option.none
  | some h =>
      if frag.isEmpty then some h
      else if escapesWellFormed frag then some h else Option.none

/-- `splitHostPort` port stripping (net/url `URL.Hostname`): cut a valid
`:port` suffix at the last colon. -/
def stripPort (h : List Char) : List Char :=
  match splitAtLast ':' h with
  | some (pre, post) => if post.all isDigitChar then pre else h
  | Option.none => h

/-- `splitHostPort` bracket stripping. -/
def stripBrackets (h : List Char) : List Char :=
  if h.head? = some '[' ∧ h.getLast? = some ']' then (h.drop 1).dropLast else h

/-- `hostname` from the engine (lines 287–297): parse the URL; on error
return the raw input; otherwise take `u.Hostname()`; if empty return the
raw input. -/
def hostnameL (rawURL : List Char) : List Char :=
  match urlHost rawURL with
  | Option.none => rawURL
  | some h =>
      let h2 := stripBrackets (stripPort h)
      if h2.isEmpty then rawURL else h2

def hostname (s : String) : String := String.mk (hostnameL s.data)

/-! ### Worker pool (engine pool file, lines 729–781) -/

/-- The pool's observable state: how many permits each buffered channel
currently holds (`global` of capacity `max_workers`, `browser` of capacity
`max_browser_workers`). -/
structure PoolState where
  g : ℕ
  b : ℕ
deriving DecidableEq, Repr

/-- The four primitive channel operations appearing in `Pool.Acquire` and
`Pool.Release`: a send on a buffered channel is enabled only while it has
free capacity, a receive only while it is nonempty.  Every interleaved
history of `Acquire`/`Release` calls is a sequence of these atomic
operations. -/
inductive PoolOp
  | acqGlobal
  | relGlobal
  | acqBrowser
  | relBrowser
deriving DecidableEq, Repr

def poolStep (maxWorkers maxBrowserWorkers : ℕ) :
    PoolState → PoolOp → Option PoolState
  | s, .acqGlobal =>
      if s.g < maxWorkers then some { s with g := s.g + 1 } else Option.none
  | s, .relGlobal =>
      if 0 < s.g then some { s with g := s.g - 1 } else Option.none
  | s, .acqBrowser =>
      if s.b < maxBrowserWorkers then some { s with b := s.b + 1 } else Option.none
  | s, .relBrowser =>
      if 0 < s.b then some { s with b := s.b - 1 } else Option.none

/-- States reachable from the fresh pool (`NewPool` leaves both channels
empty) by any interleaving of the primitive operations. -/
inductive PoolReachable (maxWorkers maxBrowserWorkers : ℕ) : PoolState → Prop
  | init : PoolReachable maxWorkers maxBrowserWorkers ⟨0, 0⟩
  | step {s s' : PoolState} (op : PoolOp) :
      PoolReachable maxWorkers maxBrowserWorkers s →
      poolStep maxWorkers maxBrowserWorkers s op = some s' →
      PoolReachable maxWorkers maxBrowserWorkers s'

inductive AcquireOutcome
  | ok
  | cancelledAtGlobal
  | cancelledAtBrowser
deriving DecidableEq, Repr

/-- `Pool.Acquire` (pool file lines 746–766) as a whole, for a given
branch outcome.  `cancelledAtBrowser` is the path where the global permit
was obtained but `ctx.Done()` fired inside the browser `select`: the code
executes `<-p.global` (releasing the global permit) before returning the
error.  `none` marks outcomes that are impossible from this state. -/
def Pool.acquire (maxWorkers maxBrowserWorkers : ℕ) (s : PoolState)
    (browserTyped : Bool) (outcome : AcquireOutcome) :
    Option (WaitResult × PoolState) :=
  match outcome with
  | .cancelledAtGlobal => some (.cancelled, s)
  | .cancelledAtBrowser =>
      if browserTyped = true ∧ s.g < maxWorkers then
        let s1 : PoolState := { s with g := s.g + 1 }
        some (.cancelled, { s1 with g := s1.g - 1 })
      else Option.none
  | .ok =>
      if s.g < maxWorkers ∧ (browserTyped = true → s.b < maxBrowserWorkers) then
        some (.ok, { g := s.g + 1, b := if browserTyped then s.b + 1 else s.b })
      else Option.none

/-! ### Scheduler pacing wait (engine scheduler file) and the dispatch loop -/

/-- `Scheduler.scheduledWait` (scheduler file, lines 352–364): outside a
cron window the wait is a 5-second sleep racing `ctx.Done()`; the timer
branch returns nil (success).  Inside a window it defers to
`rateLimitedWait`.  Results carry the elapsed wait in milliseconds. -/
def Scheduler.scheduledWait (inWindow : Bool) (ctxCancelledWithin5s : Bool)
    (cancelElapsedMs : ℚ) (rateLimitedResult : WaitResult × ℚ) :
    WaitResult × ℚ :=
  if inWindow = false then
    if ctxCancelledWithin5s then (.cancelled, cancelElapsedMs)
    else (.ok, 5000)
  else rateLimitedResult

inductive LoopStep
  | exited
  | dispatched
deriving DecidableEq, Repr

/-- One iteration of `Engine.Run`'s loop (engine file lines 95–117): a
cancelled gate breaks the loop; if the scheduler wait, resource admit and
pool acquire all return nil the iteration picks a task and spawns
`dispatch`. -/
def Engine.runLoopBody (schedWait monitorAdmit poolAcquire : WaitResult) :
    LoopStep :=
  match schedWait with
  | .cancelled => .exited
  | .ok =>
      match monitorAdmit with
      | .cancelled => .exited
      | .ok =>
          match poolAcquire with
          | .cancelled => .exited
          | .ok => .dispatched

/-! ### Registry snapshotting in `Engine.dispatch` (engine file lines 124–217)

The engine of the atomic-pointer revision holds `rl` and `backoff` behind
`atomic.Pointer`s; `dispatch` loads both once (lines 137–138) into locals
and every later registry call goes through those locals.  Registry objects
are identified by abstract ids; `Reload` installs fresh ones. -/

structure EngineRegs where
  rl : ℕ
  bo : ℕ
deriving DecidableEq, Repr

inductive RegKind
  | rlReg
  | boReg
deriving DecidableEq, Repr

inductive DispatchEv
  | reload (newRegs : EngineRegs)
  | snapshot
  | useRl
  | useBo
deriving DecidableEq, Repr

/-- Execution state of one dispatch racing concurrent reloads: the
engine's current atomic registry pointers, the dispatch's local snapshot
(absent before the loads at lines 137–138), and the log of which registry
object id each registry call actually hit. -/
structure DispatchExec where
  engine : EngineRegs
  localRegs : Option EngineRegs
  uses : List (RegKind × ℕ)

def dispStep (st : DispatchExec) : DispatchEv → DispatchExec
  | .reload regs => { st with engine := regs }
  | .snapshot => { st with localRegs := some st.engine }
  | .useRl =>
      match st.localRegs with
      | some l => { st with uses := st.uses ++ [(.rlReg, l.rl)] }
      | Option.none => st
  | .useBo =>
      match st.localRegs with
      | some l => { st with uses := st.uses ++ [(.boReg, l.bo)] }
      | Option.none => st

def dispRun (init : EngineRegs) (evs : List DispatchEv) : DispatchExec :=
  evs.foldl dispStep { engine := init, localRegs := Option.none, uses := [] }

/-- The registry-call footprint of each control-flow path through
`dispatch` after the driver lookup (the unknown-driver path performs no
registry call at all).  `useBo`/`useRl` stand for the calls in source
order: `bo.Wait`, `rl.Wait`, then per the reaction arms `bo.Attempts`,
`bo.MaxAttempts`, `bo.RecordError`, or `bo.RecordSuccess`. -/
inductive DispatchOutcome
  | cancelledBackoff
  | cancelledRate
  | errorFatal
  | errorTransient (underMax : Bool)
  | errorOther
  | statusTransient (underMax : Bool)
  | statusPermanent
  | statusNone
deriving DecidableEq, Repr

def dispatchOps : DispatchOutcome → List DispatchEv
  | .cancelledBackoff => [.useBo]
  | .cancelledRate => [.useBo, .useRl]
  | .errorFatal => [.useBo, .useRl]
  | .errorTransient true => [.useBo, .useRl, .useBo, .useBo, .useBo]
  | .errorTransient false => [.useBo, .useRl, .useBo, .useBo]
  | .errorOther => [.useBo, .useRl]
  | .statusTransient true => [.useBo, .useRl, .useBo, .useBo, .useBo]
  | .statusTransient false => [.useBo, .useRl, .useBo, .useBo]
  | .statusPermanent => [.useBo, .useRl]
  | .statusNone => [.useBo, .useRl, .useBo]

def dispatchTrace (o : DispatchOutcome) : List DispatchEv :=
  .snapshot :: dispatchOps o

/-- `Interleave l1 l2 l`: `l` is an interleaving of `l1` (the dispatch's
own events, in program order) and `l2` (concurrent events). -/
inductive Interleave : List DispatchEv → List DispatchEv → List DispatchEv → Prop
  | nil : Interleave [] [] []
  | left {a : DispatchEv} {l1 l2 l : List DispatchEv} :
      Interleave l1 l2 l → Interleave (a :: l1) l2 (a :: l)
  | right {a : DispatchEv} {l1 l2 l : List DispatchEv} :
      Interleave l1 l2 l → Interleave l1 (a :: l2) (a :: l)

/-! ### Target selector (task file): Vose alias tables

Arrays `scaled`, `prob`, `alias` become total functions on `ℕ` (only
indices below `n` are ever touched); the Go `small`/`large` slices are
used as stacks (append at the end, pop the last element), embedded as
cons-lists with the head as the top, so the initial ascending fill is
reversed. -/

structure TargetConfig where
  url : String
  ttype : String
  weight : ℤ
deriving DecidableEq, Repr

def totalWeight (targets : List TargetConfig) : ℤ :=
  (targets.map (fun t => t.weight)).sum

def weightAt (targets : List TargetConfig) (i : ℕ) : ℤ :=
  ((targets.get? i).map (fun t => t.weight)).getD 0

/-- `scaled[i] = float64(t.Weight) * float64(n) / float64(totalWeight)`. -/
def scaled0 (targets : List TargetConfig) (i : ℕ) : ℚ :=
  (weightAt targets i : ℚ) * (targets.length : ℚ) / (totalWeight targets : ℚ)

structure VoseSt where
  scaled : ℕ → ℚ
  prob : ℕ → ℚ
  aliasIdx : ℕ → ℕ
  small : List ℕ
  large : List ℕ

/-- One iteration of the pairing loop of `NewSelector` (task file lines
242–257) with `l` popped off `small` and `g` popped off `large`:
`prob[l]=scaled[l]; alias[l]=g; scaled[g]=(scaled[g]+scaled[l])-1.0`,
then `g` is pushed back onto `small` or `large` by its new weight. -/
def voseStep (st : VoseSt) (l g : ℕ) (smallRest largeRest : List ℕ) : VoseSt :=
  let st1 : VoseSt :=
    { scaled := Function.update st.scaled g (st.scaled g + st.scaled l - 1)
      prob := Function.update st.prob l (st.scaled l)
      aliasIdx := Function.update st.aliasIdx l g
      small := smallRest
      large := largeRest }
  if st1.scaled g < 1 then { st1 with small := g :: st1.small }
  else { st1 with large := g :: st1.large }

/-- The pairing loop `for len(small) > 0 && len(large) > 0`.  Each
iteration shrinks `|small|+|large|` by one, so fuel `n = |small|+|large|`
at entry runs the loop to completion. -/
def voseLoop : ℕ → VoseSt → VoseSt
  | 0, st => st
  | fuel + 1, st =>
      match st.small, st.large with
      | l :: smallRest, g :: largeRest =>
          voseLoop fuel (voseStep st l g smallRest largeRest)
      | _, _ => st

/-- The residual loops of `NewSelector` (task file lines 259–264):
`for _, g := range large { prob[g] = 1.0 }` and likewise for `small`. -/
def finalizeProb (st : VoseSt) : VoseSt :=
  { st with prob := fun i => if i ∈ st.large ∨ i ∈ st.small then 1 else st.prob i }

def initialVose (targets : List TargetConfig) : VoseSt :=
  let n := targets.length
  { scaled := scaled0 targets
    prob := fun _ => 0
    aliasIdx := fun _ => 0
    small := ((List.range n).filter (fun i => scaled0 targets i < 1)).reverse
    large := ((List.range n).filter (fun i => ¬ scaled0 targets i < 1)).reverse }

structure Selector where
  targets : List TargetConfig
  n : ℕ
  prob : ℕ → ℚ
  aliasIdx : ℕ → ℕ

/-- `NewSelector` (task file lines 208–272): reject an empty list, reject
non-positive total weight, then build the alias table. -/
def NewSelector (targets : List TargetConfig) : Except String Selector :=
  if targets.length = 0 then .error "selector requires at least one target"
  else if totalWeight targets ≤ 0 then .error "total weight must be > 0"
  else
    let st := finalizeProb (voseLoop targets.length (initialVose targets))
    .ok { targets := targets
          n := targets.length
          prob := st.prob
          aliasIdx := st.aliasIdx }

/-- `Selector.Pick` (task file lines 275–289): draw a column
`i ∈ [0,n)` and a coin `u ∈ [0,1)`; keep `i` if `u < prob[i]`, otherwise
take `alias[i]`. -/
def Selector.pickIndex (s : Selector) (i : ℕ) (u : ℚ) : ℕ :=
  if u < s.prob i then i else s.aliasIdx i

def Selector.Pick (s : Selector) (i : ℕ) (u : ℚ) : Option TargetConfig :=
  s.targets.get? (s.pickIndex i u)

/-- For `u` drawn uniformly from `[0,1)`, the chance of `u < p` is `p`
clamped into `[0,1]`. -/
def uniformChance (p : ℚ) : ℚ := max 0 (min 1 p)

/-- The chance that the two-stage draw at column `i` (keep `i` with
probability `prob i`, else take `aliasIdx i`) lands on index `j`. -/
def voseTerm (prob : ℕ → ℚ) (aliasIdx : ℕ → ℕ) (i j : ℕ) : ℚ :=
  prob i * (if i = j then 1 else 0) + (1 - prob i) * (if aliasIdx i = j then 1 else 0)

/-- The probability that a single `Pick` — uniform column `i ∈ [0,n)`,
uniform coin `u ∈ [0,1)` — returns target index `j`. -/
def pickProb (s : Selector) (j : ℕ) : ℚ :=
  (∑ i ∈ Finset.range s.n,
      voseTerm (fun i => uniformChance (s.prob i)) s.aliasIdx i j)
    / (s.n : ℚ)

/-! ### Engine configuration and hot-reload (config file; engine file lines 222–264) -/

structure ScheduleEntry where
  cron : String
  durationMinutes : ℤ
  requestsPerMinute : ℚ
deriving DecidableEq, Repr

structure PacingConfig where
  mode : String
  requestsPerMinute : ℚ
  jitterFactor : ℚ
  minDelayMs : ℤ
  maxDelayMs : ℤ
  schedule : List ScheduleEntry
deriving DecidableEq, Repr

structure LimitsConfig where
  maxWorkers : ℤ
  maxBrowserWorkers : ℤ
  cpuThresholdPct : ℚ
  memoryThresholdMB : ℕ
deriving DecidableEq, Repr

structure RateLimitsConfig where
  defaultRPS : ℚ
  perDomain : List (String × ℚ)
deriving DecidableEq, Repr

structure BackoffConfig where
  initialMs : ℤ
  maxMs : ℤ
  multiplier : ℚ
  maxAttempts : ℤ
deriving DecidableEq, Repr

structure Config where
  pacing : PacingConfig
  limits : LimitsConfig
  rateLimits : RateLimitsConfig
  backoff : BackoffConfig
  targets : List TargetConfig
deriving DecidableEq, Repr

/-- The rate-limit registry, identified by its construction parameters
(`ratelimit.NewRegistry(defaultRPS, perDomain)`); its waiting behaviour is
irrelevant to the reload claim. -/
structure RLRegistry where
  defaultRPS : ℚ
  perDomain : List (String × ℚ)
deriving DecidableEq, Repr

def mkRLRegistry (rlc : RateLimitsConfig) : RLRegistry :=
  { defaultRPS := rlc.defaultRPS, perDomain := rlc.perDomain }

/-- The scheduler's reloadable pacing state (scheduler file lines
200–236): the construction-time mode plus the atomics `minDelayMs`,
`maxDelayMs`, `activeRPM` and the limiter's rate. -/
structure SchedulerState where
  mode : String
  minDelayMs : ℤ
  maxDelayMs : ℤ
  activeRPM : ℚ
  limiterRPM : ℚ
deriving DecidableEq, Repr

/-- `Scheduler.UpdatePacing` (scheduler file lines 325–340): human mode
stores the new delay bounds, rate-limited mode installs a fresh limiter at
the new rate, scheduled mode only warns. -/
def SchedulerState.updatePacing (s : SchedulerState) (cfg : PacingConfig) :
    SchedulerState :=
  if s.mode = "human" then
    { s with minDelayMs := cfg.minDelayMs, maxDelayMs := cfg.maxDelayMs }
  else if s.mode = "rate_limited" then
    { s with activeRPM := cfg.requestsPerMinute,
             limiterRPM := cfg.requestsPerMinute / 60 }
  else s

/-- The engine's live, hot-swappable state (engine file lines 20–31): the
config snapshot, selector, both registries and the scheduler pacing. -/
structure EngineState where
  cfg : Config
  selector : Selector
  rl : RLRegistry
  backoff : BackoffRegistry
  scheduler : SchedulerState

/-- `Engine.Reload` (engine file lines 222–264), with the state it mutates
made explicit: build a new selector (returning the error, touching
nothing, if that fails), then store the new selector, fresh rate-limit and
backoff registries, update pacing unless the mode changed, and finally
store the new config snapshot. -/
def Engine.Reload (e : EngineState) (newCfg : Config) :
    Except String Unit × EngineState :=
  match NewSelector newCfg.targets with
  | .error msg => (.error ("hot-reload: building selector: " ++ msg), e)
  | .ok sel =>
      let e1 := { e with selector := sel }
      let e2 := { e1 with rl := mkRLRegistry newCfg.rateLimits }
      let e3 := { e2 with
                   backoff := NewBackoffRegistry newCfg.backoff.initialMs
                     newCfg.backoff.maxMs newCfg.backoff.multiplier
                     newCfg.backoff.maxAttempts }
      let e4 :=
        if e.cfg.pacing.mode ≠ newCfg.pacing.mode then e3
        else { e3 with scheduler := e3.scheduler.updatePacing newCfg.pacing }
      (.ok (), { e4 with cfg := newCfg })

def witnessPacing : PacingConfig :=
  { mode := "rate_limited", requestsPerMinute := 600, jitterFactor := 0
    minDelayMs := 0, maxDelayMs := 0, schedule := [] }

def witnessCfg : Config :=
  { pacing := witnessPacing
    limits := { maxWorkers := 10, maxBrowserWorkers := 1
                cpuThresholdPct := 100, memoryThresholdMB := 999999 }
    rateLimits := { defaultRPS := 100, perDomain := [] }
    backoff := { initialMs := 100, maxMs := 500, multiplier := 2, maxAttempts := 3 }
    targets := [{ url := "https://a.com", ttype := "http", weight := 1 }] }

def witnessBadCfg : Config := { witnessCfg with targets := [] }

def witnessEngine : EngineState :=
  { cfg := witnessCfg
    selector := { targets := witnessCfg.targets, n := 1
                  prob := fun _ => 1, aliasIdx := fun _ => 0 }
    rl := mkRLRegistry witnessCfg.rateLimits
    backoff := NewBackoffRegistry 100 500 2 3
    scheduler := { mode := "rate_limited", minDelayMs := 0, maxDelayMs := 0
                   activeRPM := 600, limiterRPM := 10 } }

/-! ### The selector distribution claim -/

/-- Whether `NewSelector` accepts a target list. -/
def selectorAccepts (targets : List TargetConfig) : Bool :=
  (NewSelector targets).toOption.isSome

/-- The probability that a pick from the selector built for `targets`
returns index `j` (`none` when the list is rejected). -/
def pickProbOf (targets : List TargetConfig) (j : ℕ) : Option ℚ :=
  match NewSelector targets with
  | .error _ => Option.none
  | .ok sel => some (pickProb sel j)

/-- A target list `NewSelector` accepts (total weight `2 > 0`) on which
the pick distribution does not match the weight proportions: with weights
`[-1, 3]` the first target would need probability `-1/2`. -/
def cexTargets : List TargetConfig :=
  [{ url := "https://a.com", ttype := "http", weight := -1 },
   { url := "https://b.com", ttype := "http", weight := 3 }]

/-- The selector `NewSelector` builds for `cexTargets`. -/
def cexSel : Selector :=
  { targets := cexTargets
    n := 2
    prob := (finalizeProb (voseLoop 2 (initialVose cexTargets))).prob
    aliasIdx := (finalizeProb (voseLoop 2 (initialVose cexTargets))).aliasIdx }

/-! ### Correctness of the alias-table construction

The bookkeeping invariant of the Vose loop: for every index `j < n`, the
probability mass already committed to `j` by finalized columns, plus the
scaled weight still waiting in `j`'s own slot, equals the initial scaled
weight `s0 j`.  Residual slots settle to exactly 1 (exact arithmetic), so
the finalized table realises the initial scaled weights. -/

/-- Mass already routed to index `j` by the columns no longer on the
`small`/`large` worklists. -/
def procMass (n : ℕ) (st : VoseSt) (j : ℕ) : ℚ :=
  ∑ i ∈ Finset.range n,
    (if i ∈ st.small ∨ i ∈ st.large then 0
     else voseTerm st.prob st.aliasIdx i j)

structure VoseInv (n : ℕ) (s0 : ℕ → ℚ) (st : VoseSt) : Prop where
  nodup : (st.small ++ st.large).Nodup
  bound : ∀ i ∈ st.small ++ st.large, i < n
  aliasBound : ∀ i, i < n → ¬(i ∈ st.small ∨ i ∈ st.large) → st.aliasIdx i < n
  smallLt : ∀ i ∈ st.small, st.scaled i < 1
  largeGe : ∀ i ∈ st.large, 1 ≤ st.scaled i
  mass : ∀ j, j < n →
    procMass n st j + (if j ∈ st.small ∨ j ∈ st.large then st.scaled j else 0)
      = s0 j

/-- Sign information carried when all weights are nonnegative. -/
structure VosePos (n : ℕ) (st : VoseSt) : Prop where
  scaledNonneg : ∀ i, (i ∈ st.small ∨ i ∈ st.large) → 0 ≤ st.scaled i
  probRange : ∀ i, i < n → ¬(i ∈ st.small ∨ i ∈ st.large) →
    0 ≤ st.prob i ∧ st.prob i ≤ 1

/-- A target list with all weights nonnegative: weights `[1, 3, 6]`. -/
def okTargets : List TargetConfig :=
  [{ url := "https://a.com", ttype := "http", weight := 1 },
   { url := "https://b.com", ttype := "http", weight := 3 },
   { url := "https://c.com", ttype := "browser", weight := 6 }]

/-- The selector `NewSelector` builds for `okTargets`. -/
def okSel : Selector :=
  { targets := okTargets
    n := 3
    prob := (finalizeProb (voseLoop 3 (initialVose okTargets))).prob
    aliasIdx := (finalizeProb (voseLoop 3 (initialVose okTargets))).aliasIdx }

/-- C4: the classifier maps 2xx to None; 429, 502, 503, 504, everything
≥ 500 and the sentinel 0 to Transient; and every other integer (negative
codes, 1xx, 3xx, non-429 4xx) to Permanent. -/
theorem classify_status_code_spec (code : ℤ) :
    ClassifyStatusCode code =
      (if 200 ≤ code ∧ code < 300 then ErrorClass.none
       else if code = 0 ∨ code = 429 ∨ 500 ≤ code then ErrorClass.transient
       else ErrorClass.permanent) := by
  unfold ClassifyStatusCode
  split_ifs <;> first | rfl | omega

/-- The exponential-ceiling loop stays within `[base, cap]` whenever it
starts there and the multiplier is at least one. -/
theorem jitterCeiling_bounds (mult cap : ℚ) (hm : 1 ≤ mult) :
    ∀ (n : ℕ) (c : ℚ), 0 ≤ c → c ≤ cap →
      c ≤ jitterCeiling mult cap n c ∧ jitterCeiling mult cap n c ≤ cap := by
  intro n
  induction n with
  | zero => intro c _ hc2; exact ⟨le_refl c, hc2⟩
  | succ n ih =>
      intro c hc1 hc2
      simp only [jitterCeiling]
      by_cases h : c * mult > cap
      · simp only [h, if_true]
        exact ⟨hc2, le_refl cap⟩
      · simp only [h, if_false]
        push_neg at h
        have hcm : c ≤ c * mult := le_mul_of_one_le_right hc1 hm
        have h0 : (0 : ℚ) ≤ c * mult := le_trans hc1 hcm
        obtain ⟨h1, h2⟩ := ih (c * mult) h0 h
        exact ⟨le_trans hcm h1, h2⟩

/-- C1: every `RecordError` on a registry with `0 < initial_ms ≤ max_ms`
and `multiplier > 1` returns a delay in `[initial_ms, max_ms]`
milliseconds; when the domain had no prior attempts the delay is exactly
`initial_ms`.  `u` is the value drawn by `rand.Float64()`. -/
theorem record_error_delay_bounds (r : BackoffRegistry) (domain : String)
    (now u : ℚ)
    (hinit : 0 < r.initialMs) (hle : r.initialMs ≤ r.maxMs)
    (hmult : 1 < r.multiplier) (hu0 : 0 ≤ u) (hu1 : u < 1) :
    r.initialMs ≤ (r.RecordError domain now u).1 ∧
    (r.RecordError domain now u).1 ≤ r.maxMs ∧
    (r.AttemptsOf domain = 0 → (r.RecordError domain now u).1 = r.initialMs) := by
  have hbase0 : (0 : ℚ) ≤ (r.initialMs : ℚ) := by exact_mod_cast le_of_lt hinit
  have hbasecap : (r.initialMs : ℚ) ≤ (r.maxMs : ℚ) := by exact_mod_cast hle
  have hm : (1 : ℚ) ≤ r.multiplier := le_of_lt hmult
  -- bounds on the jittered value for an arbitrary attempt count
  have key : ∀ att : ℕ, r.initialMs ≤ r.decorrelatedJitter att u ∧
      r.decorrelatedJitter att u ≤ r.maxMs := by
    intro att
    unfold BackoffRegistry.decorrelatedJitter
    obtain ⟨hc1, hc2⟩ :=
      jitterCeiling_bounds r.multiplier (r.maxMs : ℚ) hm (att - 1)
        (r.initialMs : ℚ) hbase0 hbasecap
    set ceiling := jitterCeiling r.multiplier (r.maxMs : ℚ) (att - 1) (r.initialMs : ℚ)
      with hceil
    have hjlo : (r.initialMs : ℚ) ≤ (r.initialMs : ℚ) + u * (ceiling - (r.initialMs : ℚ)) := by
      have : 0 ≤ u * (ceiling - (r.initialMs : ℚ)) :=
        mul_nonneg hu0 (by linarith)
      linarith
    set jittered := (r.initialMs : ℚ) + u * (ceiling - (r.initialMs : ℚ)) with hj
    by_cases hcap : jittered > (r.maxMs : ℚ)
    · simp only [hcap, if_true]
      have h0 : (0 : ℚ) ≤ (r.maxMs : ℚ) := le_trans hbase0 hbasecap
      simp only [truncQ, h0, if_true]
      rw [Int.floor_intCast]
      exact ⟨hle, le_refl _⟩
    · simp only [hcap, if_false]
      push_neg at hcap
      have h0j : (0 : ℚ) ≤ jittered := le_trans hbase0 hjlo
      simp only [truncQ, h0j, if_true]
      constructor
      · exact Int.le_floor.mpr (by exact_mod_cast hjlo)
      · calc ⌊jittered⌋ ≤ ⌊((r.maxMs : ℤ) : ℚ)⌋ := Int.floor_le_floor (by exact_mod_cast hcap)
          _ = r.maxMs := Int.floor_intCast _
  refine ⟨?_, ?_, ?_⟩
  · simpa [BackoffRegistry.RecordError] using
      (key (((r.domains domain).getD { attempts := 0, nextAllowed := 0 }).attempts + 1)).1
  · simpa [BackoffRegistry.RecordError] using
      (key (((r.domains domain).getD { attempts := 0, nextAllowed := 0 }).attempts + 1)).2
  · intro hatt
    have hatt1 :
        ((r.domains domain).getD { attempts := 0, nextAllowed := 0 }).attempts + 1 = 1 := by
      unfold BackoffRegistry.AttemptsOf at hatt
      cases h : r.domains domain with
      | none => simp [h]
      | some db =>
          rw [h] at hatt
          have hdb : db.attempts = 0 := hatt
          simp [h, hdb]
    simp only [BackoffRegistry.RecordError, hatt1]
    unfold BackoffRegistry.decorrelatedJitter
    simp only [jitterCeiling]
    have : (r.initialMs : ℚ) + u * ((r.initialMs : ℚ) - (r.initialMs : ℚ)) = (r.initialMs : ℚ) := by
      ring
    rw [this]
    have hng : ¬ ((r.initialMs : ℚ) > (r.maxMs : ℚ)) := not_lt.mpr hbasecap
    simp only [hng, if_false]
    simp [truncQ, hbase0]

/-- Witness for `record_error_delay_bounds`: a fresh registry configured
with `initial=100, max=500, multiplier=2` and `u = 1/2` yields delay 100
on the first error. -/
theorem record_error_delay_bounds_witness :
    100 ≤ ((NewBackoffRegistry 100 500 2 3).RecordError "example.com" 0 (1/2)).1 ∧
    ((NewBackoffRegistry 100 500 2 3).RecordError "example.com" 0 (1/2)).1 ≤ 500 ∧
    ((NewBackoffRegistry 100 500 2 3).RecordError "example.com" 0 (1/2)).1 = 100 := by
  obtain ⟨h1, h2, h3⟩ :=
    record_error_delay_bounds (NewBackoffRegistry 100 500 2 3) "example.com" 0 (1/2)
      (by decide) (by decide) (by norm_num [NewBackoffRegistry]) (by norm_num)
      (by norm_num)
  exact ⟨h1, h2, h3 (by decide)⟩

/-- C6: case analysis of `BackoffRegistry.Wait`.  No state: return Ok
immediately with the registry untouched.  Delay expired and attempts
exhausted: return Ok and evict the entry.  Delay expired but attempts
remain: return Ok leaving the state in place.  Delay pending: return Ok
after sleeping, or the cancellation error if the context fires first; the
state is untouched either way. -/
theorem backoff_wait_spec (r : BackoffRegistry) (domain : String) (now : ℚ)
    (c : Bool) :
    (r.domains domain = Option.none → r.Wait domain now c = (.ok, r)) ∧
    (∀ db, r.domains domain = some db → db.nextAllowed ≤ now →
      r.maxAttempts ≤ (db.attempts : ℤ) →
      (r.Wait domain now c).1 = .ok ∧
      (r.Wait domain now c).2.domains domain = Option.none) ∧
    (∀ db, r.domains domain = some db → db.nextAllowed ≤ now →
      (db.attempts : ℤ) < r.maxAttempts →
      r.Wait domain now c = (.ok, r)) ∧
    (∀ db, r.domains domain = some db → now < db.nextAllowed →
      r.Wait domain now c = (if c then (.cancelled, r) else (.ok, r))) := by
  refine ⟨?_, ?_, ?_, ?_⟩
  · intro h
    simp [BackoffRegistry.Wait, h]
  · intro db h hexp hmax
    have hrem : db.nextAllowed - now ≤ 0 := by linarith
    simp [BackoffRegistry.Wait, h, hrem, hmax]
  · intro db h hexp hmax
    have hrem : db.nextAllowed - now ≤ 0 := by linarith
    simp [BackoffRegistry.Wait, h, hrem, not_le.mpr hmax]
  · intro db h hpend
    have hrem : ¬ (db.nextAllowed - now ≤ 0) := by
      push_neg
      linarith
    cases c <;> simp [BackoffRegistry.Wait, h, hrem]

/-- Witness for `backoff_wait_spec`: a registry whose only domain has an
expired delay and exhausted attempts is evicted by `Wait`, which returns
Ok. -/
theorem backoff_wait_spec_witness :
    (((NewBackoffRegistry 100 500 2 1).RecordError "a.com" 0 0).2.Wait "a.com" 99999 false).1
        = WaitResult.ok ∧
    (((NewBackoffRegistry 100 500 2 1).RecordError "a.com" 0 0).2.Wait "a.com" 99999 false).2.domains
        "a.com" = Option.none := by
  refine (backoff_wait_spec
      ((NewBackoffRegistry 100 500 2 1).RecordError "a.com" 0 0).2
      "a.com" 99999 false).2.1
    { attempts := 1, nextAllowed := 100 } ?_ (by norm_num) ?_
  · simp [NewBackoffRegistry, BackoffRegistry.RecordError,
      BackoffRegistry.decorrelatedJitter, jitterCeiling, truncQ]
    norm_num
  · norm_num [NewBackoffRegistry, BackoffRegistry.RecordError]

/-- C10: operations on domain `d` leave every other domain `e`'s state
(presence, attempts, next-allowed instant) untouched, for each of
`RecordError`, `RecordSuccess` and `Wait`. -/
theorem backoff_frame_other_domains (r : BackoffRegistry) (d e : String)
    (now u : ℚ) (c : Bool) (hne : d ≠ e) :
    (r.RecordError d now u).2.domains e = r.domains e ∧
    (r.RecordSuccess d).domains e = r.domains e ∧
    (r.Wait d now c).2.domains e = r.domains e := by
  have hed : ¬ (e = d) := fun h => hne h.symm
  refine ⟨?_, ?_, ?_⟩
  · simp [BackoffRegistry.RecordError, hed]
  · simp [BackoffRegistry.RecordSuccess, hed]
  · unfold BackoffRegistry.Wait
    cases h : r.domains d with
    | none => rfl
    | some db =>
        by_cases hrem : db.nextAllowed - now ≤ 0
        · by_cases hmax : r.maxAttempts ≤ (db.attempts : ℤ)
          · simp [hrem, hmax, hed]
          · simp [hrem, hmax]
        · cases c <;> simp [hrem]

/-- Witness for `backoff_frame_other_domains`: recording an error for
`a.com` does not disturb the (absent) state of `b.com`. -/
theorem backoff_frame_other_domains_witness :
    ((NewBackoffRegistry 100 500 2 3).RecordError "a.com" 0 0).2.domains "b.com"
        = (NewBackoffRegistry 100 500 2 3).domains "b.com" ∧
    ((NewBackoffRegistry 100 500 2 3).RecordSuccess "a.com").domains "b.com"
        = (NewBackoffRegistry 100 500 2 3).domains "b.com" ∧
    (((NewBackoffRegistry 100 500 2 3)).Wait "a.com" 0 false).2.domains "b.com"
        = (NewBackoffRegistry 100 500 2 3).domains "b.com" :=
  backoff_frame_other_domains (NewBackoffRegistry 100 500 2 3) "a.com" "b.com"
    0 0 false (by decide)

/-- Decoding a valid code point gives back its value. -/
theorem toNat_ofNat_of_valid {v : ℕ} (h : v.isValidChar) :
    (Char.ofNat v).toNat = v := by
  rw [Char.ofNat, dif_pos h]
  rfl

/-- A decoded byte other than 47 is never the slash character. -/
theorem charOfNat_ne_slash {v : ℕ} (hv : v < 0xd800) (h47 : v ≠ 47) :
    Char.ofNat v ≠ '/' := by
  intro h
  have := congrArg Char.toNat h
  rw [toNat_ofNat_of_valid (Or.inl hv)] at this
  exact h47 this

/-- Hex digits decode to values below 16. -/
theorem unhexVal_lt_16 {c : Char} (h : isHexDigitChar c = true) :
    unhexVal c < 16 := by
  unfold isHexDigitChar isDigitChar at h
  unfold unhexVal isDigitChar
  simp only [Bool.or_eq_true, Bool.and_eq_true, decide_eq_true_eq] at h ⊢
  split_ifs with h1 h2 <;> simp only [decide_eq_true_eq, not_and, not_le] at * <;> omega

theorem splitAtLast_eq {ch : Char} :
    ∀ {l pre post : List Char}, splitAtLast ch l = some (pre, post) →
      l = pre ++ ch :: post := by
  intro l
  induction l with
  | nil => intro pre post h; simp [splitAtLast] at h
  | cons c cs ih =>
      intro pre post h
      simp only [splitAtLast] at h
      cases hs : splitAtLast ch cs with
      | some p =>
          obtain ⟨p1, p2⟩ := p
          rw [hs] at h
          simp only [Option.some.injEq, Prod.mk.injEq] at h
          obtain ⟨h1, h2⟩ := h
          subst h2
          rw [← h1]
          simpa using ih hs
      | none =>
          rw [hs] at h
          by_cases hc : c = ch
          · simp only [hc, if_true, Option.some.injEq, Prod.mk.injEq] at h
            obtain ⟨h1, h2⟩ := h
            subst h2
            rw [← h1, hc]
            rfl
          · simp [hc] at h

theorem splitAtPct25_eq :
    ∀ {l pre post : List Char}, splitAtPct25 l = some (pre, post) →
      l = pre ++ post := by
  intro l
  induction l with
  | nil => intro pre post h; simp [splitAtPct25] at h
  | cons c cs ih =>
      intro pre post h
      simp only [splitAtPct25] at h
      by_cases hb : beginsPct25 (c :: cs) = true
      · simp only [hb, if_true, Option.some.injEq, Prod.mk.injEq] at h
        obtain ⟨h1, h2⟩ := h
        subst h2
        rw [← h1]
        rfl
      · cases hs : splitAtPct25 cs with
        | none =>
            rw [hs] at h
            simp [hb] at h
        | some p =>
            obtain ⟨p1, p2⟩ := p
            rw [hs] at h
            rw [if_neg hb] at h
            simp only [Option.map_some'] at h
            have h' := Option.some.inj h
            have h1 : c :: p1 = pre := congrArg Prod.fst h'
            have h2 : p2 = post := congrArg Prod.snd h'
            rw [← h1, ← h2]
            simpa using ih hs

/-- A byte in the host-allowed set is never the slash byte 47. -/
theorem hostUnreserved_ne_47 {v : ℕ} (h : isHostUnreservedByte v = true) :
    v ≠ 47 := by
  intro hv
  subst hv
  simp [isHostUnreservedByte] at h

/-- Host-mode unescaping never introduces a slash. -/
theorem unescapeHost_no_slash_fuel :
    ∀ (n : ℕ) {l out : List Char}, l.length ≤ n → '/' ∉ l →
      unescapeHost l = some out → '/' ∉ out := by
  intro n
  induction n with
  | zero =>
      intro l out hlen hl h
      have hnil : l = [] := List.length_eq_zero.mp (Nat.le_zero.mp hlen)
      subst hnil
      simp only [unescapeHost, Option.some.injEq] at h
      subst h
      simp
  | succ n ih =>
      intro l out hlen hl h
      cases l with
      | nil =>
          simp only [unescapeHost, Option.some.injEq] at h
          subst h
          simp
      | cons c cs =>
          by_cases hc : c = '%'
          · subst hc
            cases cs with
            | nil => simp [unescapeHost] at h
            | cons a cs2 =>
                cases cs2 with
                | nil => simp [unescapeHost] at h
                | cons b rest =>
                    simp only [unescapeHost, if_pos rfl] at h
                    by_cases hhex : (isHexDigitChar a && isHexDigitChar b) = true
                    · rw [if_pos hhex] at h
                      by_cases hrej :
                          unhexVal a * 16 + unhexVal b < 0x80 ∧ ¬(a = '2' ∧ b = '5')
                      · rw [if_pos hrej] at h
                        simp at h
                      · rw [if_neg hrej] at h
                        cases hs : unescapeHost rest with
                        | none => rw [hs] at h; simp at h
                        | some t =>
                            rw [hs] at h
                            simp only [Option.map_some'] at h
                            rw [← Option.some.inj h]
                            have hrest : '/' ∉ rest := fun hm => hl (by simp [hm])
                            have hlen2 : rest.length ≤ n := by
                              simp only [List.length_cons] at hlen
                              omega
                            have ht := ih hlen2 hrest hs
                            intro hm
                            rcases List.mem_cons.mp hm with he | hm2
                            · obtain ⟨ha, hb⟩ := Bool.and_eq_true_iff.mp hhex
                              have hva := unhexVal_lt_16 ha
                              have hvb := unhexVal_lt_16 hb
                              rcases not_and_or.mp hrej with hv | hab
                              · push_neg at hv
                                exact charOfNat_ne_slash (by omega) (by omega) he.symm
                              · obtain ⟨ha2, hb5⟩ := not_not.mp hab
                                subst ha2
                                subst hb5
                                exact absurd he.symm (by decide)
                            · exact ht hm2
                    · rw [if_neg hhex] at h
                      simp at h
          · have hck : unescapeHost (c :: cs) = (unescapeHost cs).map (fun t => c :: t) := by
              conv_lhs => rw [unescapeHost.eq_def]
              simp only [hc, if_false]
            rw [hck] at h
            cases hs : unescapeHost cs with
            | none => rw [hs] at h; simp at h
            | some t =>
                rw [hs] at h
                simp only [Option.map_some'] at h
                rw [← Option.some.inj h]
                have hcs : '/' ∉ cs := fun hm => hl (by simp [hm])
                have hlen2 : cs.length ≤ n := by
                  simp only [List.length_cons] at hlen
                  omega
                have ht := ih hlen2 hcs hs
                intro hm
                rcases List.mem_cons.mp hm with he | hm2
                · exact hl (by rw [he]; exact List.mem_cons_self c cs)
                · exact ht hm2

theorem unescapeHost_no_slash {l out : List Char} (hl : '/' ∉ l)
    (h : unescapeHost l = some out) : '/' ∉ out :=
  unescapeHost_no_slash_fuel l.length le_rfl hl h

/-- Zone-mode unescaping never introduces a slash. -/
theorem unescapeZone_no_slash_fuel :
    ∀ (n : ℕ) {l out : List Char}, l.length ≤ n → '/' ∉ l →
      unescapeZone l = some out → '/' ∉ out := by
  intro n
  induction n with
  | zero =>
      intro l out hlen hl h
      have hnil : l = [] := List.length_eq_zero.mp (Nat.le_zero.mp hlen)
      subst hnil
      simp only [unescapeZone, Option.some.injEq] at h
      subst h
      simp
  | succ n ih =>
      intro l out hlen hl h
      cases l with
      | nil =>
          simp only [unescapeZone, Option.some.injEq] at h
          subst h
          simp
      | cons c cs =>
          by_cases hc : c = '%'
          · subst hc
            cases cs with
            | nil => simp [unescapeZone] at h
            | cons a cs2 =>
                cases cs2 with
                | nil => simp [unescapeZone] at h
                | cons b rest =>
                    simp only [unescapeZone, if_pos rfl] at h
                    by_cases hhex : (isHexDigitChar a && isHexDigitChar b) = true
                    · rw [if_pos hhex] at h
                      by_cases hrej : ¬(a = '2' ∧ b = '5') ∧
                          unhexVal a * 16 + unhexVal b ≠ 32 ∧
                          isHostUnreservedByte (unhexVal a * 16 + unhexVal b) = false
                      · rw [if_pos hrej] at h
                        simp at h
                      · rw [if_neg hrej] at h
                        cases hs : unescapeZone rest with
                        | none => rw [hs] at h; simp at h
                        | some t =>
                            rw [hs] at h
                            simp only [Option.map_some'] at h
                            rw [← Option.some.inj h]
                            have hrest : '/' ∉ rest := fun hm => hl (by simp [hm])
                            have hlen2 : rest.length ≤ n := by
                              simp only [List.length_cons] at hlen
                              omega
                            have ht := ih hlen2 hrest hs
                            intro hm
                            rcases List.mem_cons.mp hm with he | hm2
                            · obtain ⟨ha, hb⟩ := Bool.and_eq_true_iff.mp hhex
                              have hva := unhexVal_lt_16 ha
                              have hvb := unhexVal_lt_16 hb
                              rcases not_and_or.mp hrej with hab | hrest2
                              · obtain ⟨ha2, hb5⟩ := not_not.mp hab
                                subst ha2
                                subst hb5
                                exact absurd he.symm (by decide)
                              · rcases not_and_or.mp hrest2 with hv32 | hres
                                · push_neg at hv32
                                  exact charOfNat_ne_slash (by omega) (by omega) he.symm
                                · have hres2 : isHostUnreservedByte
                                      (unhexVal a * 16 + unhexVal b) = true := by
                                    revert hres
                                    cases isHostUnreservedByte (unhexVal a * 16 + unhexVal b) <;>
                                      simp
                                  have := hostUnreserved_ne_47 hres2
                                  exact charOfNat_ne_slash (by omega) this he.symm
                            · exact ht hm2
                    · rw [if_neg hhex] at h
                      simp at h
          · have hck : unescapeZone (c :: cs) = (unescapeZone cs).map (fun t => c :: t) := by
              conv_lhs => rw [unescapeZone.eq_def]
              simp only [hc, if_false]
            rw [hck] at h
            cases hs : unescapeZone cs with
            | none => rw [hs] at h; simp at h
            | some t =>
                rw [hs] at h
                simp only [Option.map_some'] at h
                rw [← Option.some.inj h]
                have hcs : '/' ∉ cs := fun hm => hl (by simp [hm])
                have hlen2 : cs.length ≤ n := by
                  simp only [List.length_cons] at hlen
                  omega
                have ht := ih hlen2 hcs hs
                intro hm
                rcases List.mem_cons.mp hm with he | hm2
                · exact hl (by rw [he]; exact List.mem_cons_self c cs)
                · exact ht hm2

theorem unescapeZone_no_slash {l out : List Char} (hl : '/' ∉ l)
    (h : unescapeZone l = some out) : '/' ∉ out :=
  unescapeZone_no_slash_fuel l.length le_rfl hl h

/-- `parseHost` never returns a host containing a slash when its input has
none (the authority was already cut at the first slash). -/
theorem parseHost_no_slash {host out : List Char} (hh : '/' ∉ host)
    (h : parseHost host = some out) : '/' ∉ out := by
  unfold parseHost at h
  by_cases hb : host.head? = some '['
  · rw [if_pos hb] at h
    cases hsl : splitAtLast ']' host with
    | none => rw [hsl] at h; simp at h
    | some p =>
        obtain ⟨pre, post⟩ := p
        simp only [hsl] at h
        have heq := splitAtLast_eq hsl
        have hpre : '/' ∉ pre := fun hm => hh (by
          rw [heq]; exact List.mem_append.mpr (Or.inl hm))
        have hpost : '/' ∉ (']' :: post) := by
          intro hm
          rcases List.mem_cons.mp hm with he | hm2
          · exact absurd he (by decide)
          · exact hh (by
              rw [heq]
              exact List.mem_append.mpr (Or.inr (List.mem_cons.mpr (Or.inr hm2))))
        by_cases hvp : validOptionalPort post = true
        · rw [if_pos hvp] at h
          cases hz : splitAtPct25 pre with
          | some zp =>
              obtain ⟨zpre, zsuf⟩ := zp
              simp only [hz] at h
              have hzeq := splitAtPct25_eq hz
              have hzpre : '/' ∉ zpre := fun hm => hpre (by
                rw [hzeq]; exact List.mem_append.mpr (Or.inl hm))
              have hzsuf : '/' ∉ zsuf := fun hm => hpre (by
                rw [hzeq]; exact List.mem_append.mpr (Or.inr hm))
              cases h1 : unescapeHost zpre with
              | none => simp [h1] at h
              | some o1 =>
                  cases h2 : unescapeZone zsuf with
                  | none => simp [h1, h2] at h
                  | some o2 =>
                      cases h3 : unescapeHost (']' :: post) with
                      | none => simp [h1, h2, h3] at h
                      | some o3 =>
                          simp only [h1, h2, h3, Option.some.injEq] at h
                          rw [← h]
                          intro hm
                          rcases List.mem_append.mp hm with hm12 | hm3
                          · rcases List.mem_append.mp hm12 with hm1 | hm2
                            · exact unescapeHost_no_slash hzpre h1 hm1
                            · exact unescapeZone_no_slash hzsuf h2 hm2
                          · exact unescapeHost_no_slash hpost h3 hm3
          | none =>
              simp only [hz] at h
              exact unescapeHost_no_slash hh h
        · rw [if_neg hvp] at h
          simp at h
  · rw [if_neg hb] at h
    cases hsl : splitAtLast ':' host with
    | some p =>
        obtain ⟨pre, post⟩ := p
        simp only [hsl] at h
        by_cases hd : post.all isDigitChar = true
        · rw [if_pos hd] at h
          exact unescapeHost_no_slash hh h
        · rw [if_neg hd] at h
          simp at h
    | none =>
        simp only [hsl] at h
        exact unescapeHost_no_slash hh h

theorem parseAuthorityHost_no_slash {authority out : List Char}
    (ha : '/' ∉ authority) (h : parseAuthorityHost authority = some out) :
    '/' ∉ out := by
  unfold parseAuthorityHost at h
  cases hsl : splitAtLast '@' authority with
  | none => simp only [hsl] at h; exact parseHost_no_slash ha h
  | some p =>
      obtain ⟨userinfo, hostpart⟩ := p
      simp only [hsl] at h
      have heq := splitAtLast_eq hsl
      have hhp : '/' ∉ hostpart := fun hm => ha (by
        rw [heq]
        exact List.mem_append.mpr (Or.inr (List.mem_cons.mpr (Or.inr hm))))
      cases hph : parseHost hostpart with
      | none => simp [hph] at h
      | some hres =>
          simp only [hph] at h
          by_cases hui : (userinfo.all validUserinfoChar && escapesWellFormed userinfo) = true
          · rw [if_pos hui] at h
            rw [← Option.some.inj h]
            exact parseHost_no_slash hhp hph
          · rw [if_neg hui] at h
            simp at h

theorem getSchemeAux_rest_mem {orig : List Char} :
    ∀ (cur acc : List Char), (∀ c ∈ cur, c ∈ orig) →
      ∀ {sch rest : List Char}, getSchemeAux orig acc cur = some (sch, rest) →
        ∀ c ∈ rest, c ∈ orig := by
  intro cur
  induction cur with
  | nil =>
      intro acc _ sch rest h c hc
      simp only [getSchemeAux, Option.some.injEq, Prod.mk.injEq] at h
      obtain ⟨_, h2⟩ := h
      exact h2 ▸ hc
  | cons d ds ih =>
      intro acc hsub sch rest h c hc
      have hds : ∀ x ∈ ds, x ∈ orig := fun x hx => hsub x (List.mem_cons.mpr (Or.inr hx))
      simp only [getSchemeAux] at h
      by_cases h1 : isAlphaChar d = true
      · rw [if_pos h1] at h
        exact ih (acc ++ [d]) hds h c hc
      · rw [if_neg h1] at h
        by_cases h2 : (isDigitChar d || d = '+' || d = '-' || d = '.') = true
        · rw [if_pos h2] at h
          by_cases h3 : acc.isEmpty = true
          · rw [if_pos h3] at h
            simp only [Option.some.injEq, Prod.mk.injEq] at h
            obtain ⟨_, hr⟩ := h
            exact hr ▸ hc
          · rw [if_neg h3] at h
            exact ih (acc ++ [d]) hds h c hc
        · rw [if_neg h2] at h
          by_cases h4 : d = ':'
          · rw [if_pos h4] at h
            by_cases h5 : acc.isEmpty = true
            · rw [if_pos h5] at h
              simp at h
            · rw [if_neg h5] at h
              simp only [Option.some.injEq, Prod.mk.injEq] at h
              obtain ⟨_, hr⟩ := h
              exact hds c (hr ▸ hc)
          · rw [if_neg h4] at h
            simp only [Option.some.injEq, Prod.mk.injEq] at h
            obtain ⟨_, hr⟩ := h
            exact hr ▸ hc

theorem getScheme_rest_mem {s sch rest : List Char}
    (h : getScheme s = some (sch, rest)) : ∀ c ∈ rest, c ∈ s :=
  getSchemeAux_rest_mem s [] (fun _ hc => hc) h

theorem begins1Slash_mem {l : List Char} (h : begins1Slash l = true) :
    '/' ∈ l := by
  unfold begins1Slash at h
  rw [decide_eq_true_eq] at h
  have h1 : '/' ∈ l.take 1 := by rw [h]; simp
  exact List.take_subset 1 l h1

/-- Any host produced by the parser contains no slash: the authority is
cut at the first slash and unescaping cannot reintroduce one. -/
theorem parseNoFrag_no_slash {u out : List Char} (h : parseNoFrag u = some out) :
    '/' ∉ out := by
  simp only [parseNoFrag] at h
  by_cases hctl : u.any isCTL = true
  · rw [if_pos hctl] at h
    simp at h
  · rw [if_neg hctl] at h
    cases hgs : getScheme u with
    | none => rw [hgs] at h; simp at h
    | some p =>
        obtain ⟨scheme, rest0⟩ := p
        simp only [hgs] at h
        by_cases hb1 : begins1Slash (rest0.takeWhile (fun c => c != '?')) = true
        · rw [if_pos hb1] at h
          by_cases hcond : (scheme ≠ [] ∨
                begins3Slash (rest0.takeWhile (fun c => c != '?')) = false) ∧
              begins2Slash (rest0.takeWhile (fun c => c != '?')) = true
          · rw [if_pos hcond] at h
            have hauth : '/' ∉ ((rest0.takeWhile (fun c => c != '?')).drop 2).takeWhile
                (fun c => c != '/') := by
              intro hm
              have := List.mem_takeWhile_imp hm
              simp at this
            cases hpa : parseAuthorityHost
                (((rest0.takeWhile (fun c => c != '?')).drop 2).takeWhile
                  (fun c => c != '/')) with
            | none => rw [hpa] at h; simp at h
            | some hres =>
                simp only [hpa] at h
                by_cases hwf : escapesWellFormed
                    (((rest0.takeWhile (fun c => c != '?')).drop 2).dropWhile
                      (fun c => c != '/')) = true
                · rw [if_pos hwf] at h
                  rw [← Option.some.inj h]
                  exact parseAuthorityHost_no_slash hauth hpa
                · rw [if_neg hwf] at h
                  simp at h
          · rw [if_neg hcond] at h
            by_cases hwf : escapesWellFormed (rest0.takeWhile (fun c => c != '?')) = true
            · rw [if_pos hwf] at h
              rw [← Option.some.inj h]
              simp
            · rw [if_neg hwf] at h
              simp at h
        · rw [if_neg hb1] at h
          by_cases hsch : scheme ≠ []
          · rw [if_pos hsch] at h
            rw [← Option.some.inj h]
            simp
          · rw [if_neg hsch] at h
            by_cases hcolon : ((rest0.takeWhile (fun c => c != '?')).takeWhile
                (fun c => c != '/')).contains ':' = true
            · rw [if_pos hcolon] at h
              simp at h
            · rw [if_neg hcolon] at h
              by_cases hwf : escapesWellFormed (rest0.takeWhile (fun c => c != '?')) = true
              · rw [if_pos hwf] at h
                rw [← Option.some.inj h]
                simp
              · rw [if_neg hwf] at h
                simp at h

/-- On a slash-free input the parser yields no host: an error, or an
empty host. -/
theorem parseNoFrag_of_no_slash {u : List Char} (hu : '/' ∉ u) :
    parseNoFrag u = Option.none ∨ parseNoFrag u = some [] := by
  simp only [parseNoFrag]
  by_cases hctl : u.any isCTL = true
  · rw [if_pos hctl]
    exact Or.inl rfl
  · rw [if_neg hctl]
    cases hgs : getScheme u with
    | none => exact Or.inl rfl
    | some p =>
        obtain ⟨scheme, rest0⟩ := p
        simp only []
        have hr0 : '/' ∉ rest0 := fun hm => hu (getScheme_rest_mem hgs '/' hm)
        have hrest : '/' ∉ rest0.takeWhile (fun c => c != '?') := fun hm =>
          hr0 ((List.takeWhile_sublist _).subset hm)
        have hb1 : ¬ (begins1Slash (rest0.takeWhile (fun c => c != '?')) = true) :=
          fun hb => hrest (begins1Slash_mem hb)
        rw [if_neg hb1]
        by_cases hsch : scheme ≠ []
        · rw [if_pos hsch]
          exact Or.inr rfl
        · rw [if_neg hsch]
          by_cases hcolon : ((rest0.takeWhile (fun c => c != '?')).takeWhile
              (fun c => c != '/')).contains ':' = true
          · rw [if_pos hcolon]
            exact Or.inl rfl
          · rw [if_neg hcolon]
            by_cases hwf : escapesWellFormed (rest0.takeWhile (fun c => c != '?')) = true
            · rw [if_pos hwf]
              exact Or.inr rfl
            · rw [if_neg hwf]
              exact Or.inl rfl

theorem urlHost_no_slash {raw h : List Char} (hu : urlHost raw = some h) :
    '/' ∉ h := by
  simp only [urlHost] at hu
  cases hp : parseNoFrag (raw.takeWhile (fun c => c != '#')) with
  | none => rw [hp] at hu; simp at hu
  | some h0 =>
      simp only [hp] at hu
      split_ifs at hu <;>
        first
          | (exact Option.some.inj hu ▸ parseNoFrag_no_slash hp)
          | simp at hu

theorem stripPort_no_slash {h : List Char} (hh : '/' ∉ h) : '/' ∉ stripPort h := by
  unfold stripPort
  cases hsl : splitAtLast ':' h with
  | none => exact hh
  | some p =>
      obtain ⟨pre, post⟩ := p
      simp only []
      by_cases hd : post.all isDigitChar = true
      · rw [if_pos hd]
        intro hm
        exact hh (by rw [splitAtLast_eq hsl]; exact List.mem_append.mpr (Or.inl hm))
      · rw [if_neg hd]
        exact hh

theorem stripBrackets_no_slash {h : List Char} (hh : '/' ∉ h) :
    '/' ∉ stripBrackets h := by
  unfold stripBrackets
  split_ifs with hc
  · intro hm
    exact hh (List.drop_subset 1 h ((List.dropLast_sublist _).subset hm))
  · exact hh

/-- A slash-free string is a fixed point of `hostname`: its parse yields
no usable host, so the raw input is returned. -/
theorem hostnameL_of_no_slash {raw : List Char} (hr : '/' ∉ raw) :
    hostnameL raw = raw := by
  have hu : '/' ∉ raw.takeWhile (fun c => c != '#') := fun hm =>
    hr ((List.takeWhile_sublist _).subset hm)
  rcases parseNoFrag_of_no_slash hu with hn | hs
  · have h1 : urlHost raw = Option.none := by
      simp [urlHost, hn]
    simp [hostnameL, h1]
  · have h1 : urlHost raw = Option.none ∨ urlHost raw = some [] := by
      simp only [urlHost, hs]
      split_ifs <;> simp
    rcases h1 with h1 | h1 <;>
      simp [hostnameL, h1, stripPort, stripBrackets, splitAtLast]

theorem hostnameL_idem (raw : List Char) :
    hostnameL (hostnameL raw) = hostnameL raw := by
  cases hu : urlHost raw with
  | none =>
      have h1 : hostnameL raw = raw := by simp [hostnameL, hu]
      rw [h1]
      exact h1
  | some h =>
      by_cases hemp : (stripBrackets (stripPort h)).isEmpty = true
      · have h1 : hostnameL raw = raw := by simp [hostnameL, hu, hemp]
        rw [h1]
        exact h1
      · have h1 : hostnameL raw = stripBrackets (stripPort h) := by
          simp [hostnameL, hu, hemp]
        rw [h1]
        exact hostnameL_of_no_slash
          (stripBrackets_no_slash (stripPort_no_slash (urlHost_no_slash hu)))

/-- C7: `hostname` is idempotent — applying it twice gives the same
string as applying it once, for every input string. -/
theorem hostname_idempotent (x : String) :
    hostname (hostname x) = hostname x := by
  unfold hostname
  have hdata : (String.mk (hostnameL x.data)).data = hostnameL x.data := rfl
  rw [hdata, hostnameL_idem]

/-- C9: in scheduled pacing mode with no active window and no
cancellation, `scheduledWait` returns success after its 5-second re-check
sleep (it does not keep blocking for a window), and a loop iteration whose
three gates all return success picks and dispatches one task — so outside
every window the engine dispatches roughly once per 5 seconds. -/
theorem scheduled_wait_outside_window_dispatches (cancelElapsedMs : ℚ)
    (rateLimitedResult : WaitResult × ℚ) :
    Scheduler.scheduledWait false false cancelElapsedMs rateLimitedResult
        = (WaitResult.ok, 5000) ∧
    Engine.runLoopBody .ok .ok .ok = LoopStep.dispatched :=
  ⟨rfl, rfl⟩

/-- C3: (1) in every state reachable by any interleaved history of pool
operations, at most `max_workers` global permits and at most
`max_browser_workers` browser permits are held; (2) an `Acquire` that is
cancelled while waiting for the browser permit returns the cancellation
error with the global permit released — the pool state it leaves equals
the state it started from. -/
theorem pool_bounds_and_cancel_release (maxWorkers maxBrowserWorkers : ℕ) :
    (∀ s : PoolState, PoolReachable maxWorkers maxBrowserWorkers s →
      s.g ≤ maxWorkers ∧ s.b ≤ maxBrowserWorkers) ∧
    (∀ (s : PoolState) (res : WaitResult × PoolState),
      Pool.acquire maxWorkers maxBrowserWorkers s true .cancelledAtBrowser
          = some res →
      res.1 = .cancelled ∧ res.2.g = s.g ∧ res.2.b = s.b) := by
  constructor
  · intro s hreach
    induction hreach with
    | init => exact ⟨Nat.zero_le _, Nat.zero_le _⟩
    | step op _ hstep ih =>
        cases op
        · simp only [poolStep] at hstep
          split_ifs at hstep with h
          rw [← Option.some.inj hstep]
          exact ⟨h, ih.2⟩
        · simp only [poolStep] at hstep
          split_ifs at hstep with h
          rw [← Option.some.inj hstep]
          exact ⟨le_trans (Nat.sub_le _ _) ih.1, ih.2⟩
        · simp only [poolStep] at hstep
          split_ifs at hstep with h
          rw [← Option.some.inj hstep]
          exact ⟨ih.1, h⟩
        · simp only [poolStep] at hstep
          split_ifs at hstep with h
          rw [← Option.some.inj hstep]
          exact ⟨ih.1, le_trans (Nat.sub_le _ _) ih.2⟩
  · intro s res h
    simp only [Pool.acquire] at h
    split_ifs at h with hcond
    all_goals
      first
        | (rw [← Option.some.inj h]; exact ⟨rfl, rfl, rfl⟩)
        | simp at h

/-- Witness for `pool_bounds_and_cancel_release` at `N=2, M=1`: the state
after one global acquire is reachable and within bounds, and a
browser-acquire cancelled at the browser gate from that state leaves it
unchanged. -/
theorem pool_bounds_and_cancel_release_witness :
    ((⟨1, 0⟩ : PoolState).g ≤ 2 ∧ (⟨1, 0⟩ : PoolState).b ≤ 1) ∧
    (Pool.acquire 2 1 ⟨1, 0⟩ true .cancelledAtBrowser
        = some (.cancelled, ⟨1, 0⟩) →
      WaitResult.cancelled = WaitResult.cancelled ∧ (1 : ℕ) = 1 ∧ (0 : ℕ) = 0) := by
  constructor
  · exact (pool_bounds_and_cancel_release 2 1).1 ⟨1, 0⟩
      (PoolReachable.step PoolOp.acqGlobal PoolReachable.init (by decide))
  · intro h
    exact (pool_bounds_and_cancel_release 2 1).2 ⟨1, 0⟩ (.cancelled, ⟨1, 0⟩) h

/-- `NewSelector` fails exactly on the inputs the claim describes. -/
theorem newSelector_error_of_invalid {targets : List TargetConfig}
    (hbad : targets = [] ∨ totalWeight targets ≤ 0) :
    ∃ msg, NewSelector targets = .error msg := by
  unfold NewSelector
  rcases hbad with h | h
  · subst h
    exact ⟨_, rfl⟩
  · by_cases hn : targets.length = 0
    · rw [if_pos hn]
      exact ⟨_, rfl⟩
    · rw [if_neg hn, if_pos h]
      exact ⟨_, rfl⟩

/-- C8: a `Reload` whose target list is rejected by `NewSelector` (empty,
or total weight ≤ 0) returns an error and leaves the engine's entire live
state — selector, rate-limit registry, backoff registry, scheduler pacing
and config snapshot — exactly as it was. -/
theorem reload_invalid_targets_no_mutation (e : EngineState) (newCfg : Config)
    (hbad : newCfg.targets = [] ∨ totalWeight newCfg.targets ≤ 0) :
    (∃ msg, (Engine.Reload e newCfg).1 = .error msg) ∧
    (Engine.Reload e newCfg).2 = e := by
  obtain ⟨msg, hmsg⟩ := newSelector_error_of_invalid hbad
  unfold Engine.Reload
  rw [hmsg]
  exact ⟨⟨_, rfl⟩, rfl⟩

/-- Witness for `reload_invalid_targets_no_mutation`: reloading a concrete
engine with an empty target list errors and keeps the state. -/
theorem reload_invalid_targets_no_mutation_witness :
    (∃ msg, (Engine.Reload witnessEngine witnessBadCfg).1 = .error msg) ∧
    (Engine.Reload witnessEngine witnessBadCfg).2 = witnessEngine :=
  reload_invalid_targets_no_mutation witnessEngine witnessBadCfg (Or.inl rfl)

theorem interleave_mem {l1 l2 l : List DispatchEv} (h : Interleave l1 l2 l) :
    ∀ x ∈ l, x ∈ l1 ∨ x ∈ l2 := by
  induction h with
  | nil => intro x hx; simp at hx
  | left _ ih =>
      intro x hx
      rcases List.mem_cons.mp hx with he | hm
      · exact Or.inl (List.mem_cons.mpr (Or.inl he))
      · rcases ih x hm with h1 | h2
        · exact Or.inl (List.mem_cons.mpr (Or.inr h1))
        · exact Or.inr h2
  | right _ ih =>
      intro x hx
      rcases List.mem_cons.mp hx with he | hm
      · exact Or.inr (List.mem_cons.mpr (Or.inl he))
      · rcases ih x hm with h1 | h2
        · exact Or.inl h1
        · exact Or.inr (List.mem_cons.mpr (Or.inr h2))

/-- After the snapshot is taken, no later event — reloads included —
changes the local registry pair, and every registry call hits it. -/
theorem dispRun_after_snapshot :
    ∀ (evs : List DispatchEv) (st : DispatchExec) (l : EngineRegs),
      st.localRegs = some l → DispatchEv.snapshot ∉ evs →
      (evs.foldl dispStep st).localRegs = some l ∧
      ∀ u ∈ (evs.foldl dispStep st).uses,
        u ∈ st.uses ∨ u = (RegKind.rlReg, l.rl) ∨ u = (RegKind.boReg, l.bo) := by
  intro evs
  induction evs with
  | nil =>
      intro st l hl _
      exact ⟨hl, fun u hu => Or.inl hu⟩
  | cons ev rest ih =>
      intro st l hl hns
      have hns2 : DispatchEv.snapshot ∉ rest := fun hm =>
        hns (List.mem_cons.mpr (Or.inr hm))
      cases ev with
      | reload regs =>
          simp only [List.foldl_cons, dispStep]
          exact ih _ l hl hns2
      | snapshot => exact absurd (List.mem_cons.mpr (Or.inl rfl)) hns
      | useRl =>
          simp only [List.foldl_cons, dispStep, hl]
          obtain ⟨h1, h2⟩ :=
            ih ⟨st.engine, some l, st.uses ++ [(.rlReg, l.rl)]⟩ l rfl hns2
          refine ⟨h1, fun u hu => ?_⟩
          rcases h2 u hu with hmem | hr | hb
          · rcases List.mem_append.mp hmem with hmem2 | hx
            · exact Or.inl hmem2
            · simp only [List.mem_singleton] at hx
              exact Or.inr (Or.inl hx)
          · exact Or.inr (Or.inl hr)
          · exact Or.inr (Or.inr hb)
      | useBo =>
          simp only [List.foldl_cons, dispStep, hl]
          obtain ⟨h1, h2⟩ :=
            ih ⟨st.engine, some l, st.uses ++ [(.boReg, l.bo)]⟩ l rfl hns2
          refine ⟨h1, fun u hu => ?_⟩
          rcases h2 u hu with hmem | hr | hb
          · rcases List.mem_append.mp hmem with hmem2 | hx
            · exact Or.inl hmem2
            · simp only [List.mem_singleton] at hx
              exact Or.inr (Or.inr hx)
          · exact Or.inr (Or.inl hr)
          · exact Or.inr (Or.inr hb)

/-- Running any interleaving of `snapshot :: ops` with reload events: all
registry calls hit one single registry pair (the engine's value when the
snapshot was taken). -/
theorem interleave_snapshot_run :
    ∀ {l1 rs evs : List DispatchEv}, Interleave l1 rs evs →
      ∀ ops : List DispatchEv, l1 = DispatchEv.snapshot :: ops →
        DispatchEv.snapshot ∉ ops →
        (∀ e ∈ rs, ∃ g, e = DispatchEv.reload g) →
        ∀ st : DispatchExec, st.localRegs = Option.none →
          ∃ snap : EngineRegs,
            ∀ u ∈ (evs.foldl dispStep st).uses,
              u ∈ st.uses ∨ u = (RegKind.rlReg, snap.rl)
                ∨ u = (RegKind.boReg, snap.bo) := by
  intro l1 rs evs hint
  induction hint with
  | nil => intro ops heq _ _ _ _; exact absurd heq (by simp)
  | left hsub ih =>
      rename_i a l1' l2' l'
      intro ops heq hops hrs st hst
      obtain ⟨ha, hl1⟩ := List.cons.inj heq
      subst ha
      subst hl1
      have hnl : DispatchEv.snapshot ∉ l' := by
        intro hm
        rcases interleave_mem hsub _ hm with h1 | h2
        · exact hops h1
        · obtain ⟨g, hg⟩ := hrs _ h2
          simp at hg
      simp only [List.foldl_cons, dispStep]
      obtain ⟨h1, h2⟩ := dispRun_after_snapshot l'
        { st with localRegs := some st.engine } st.engine rfl hnl
      exact ⟨st.engine, fun u hu => h2 u hu⟩
  | right hsub ih =>
      rename_i a l1' l2' l'
      intro ops heq hops hrs st hst
      obtain ⟨g, hg⟩ := hrs a (List.mem_cons.mpr (Or.inl rfl))
      subst hg
      have hrs2 : ∀ e ∈ l2', ∃ g2, e = DispatchEv.reload g2 := fun e he =>
        hrs e (List.mem_cons.mpr (Or.inr he))
      simp only [List.foldl_cons, dispStep]
      exact ih ops heq hops hrs2 { st with engine := g } hst

theorem snapshot_not_mem_dispatchOps (o : DispatchOutcome) :
    DispatchEv.snapshot ∉ dispatchOps o := by
  cases o with
  | cancelledBackoff => decide
  | cancelledRate => decide
  | errorFatal => decide
  | errorTransient b => cases b <;> decide
  | errorOther => decide
  | statusTransient b => cases b <;> decide
  | statusPermanent => decide
  | statusNone => decide

/-- C2: every dispatch path loads the two registries exactly once, as its
first action (`dispatchTrace` begins with the single `snapshot` event),
and however concurrent `Reload` events interleave with it, every backoff
and rate-limit call of the dispatch hits the one registry pair captured at
the snapshot — a reload can never make one task wait on one registry and
update a different one. -/
theorem dispatch_snapshot_registry_consistency (init : EngineRegs)
    (outcome : DispatchOutcome) (rs evs : List DispatchEv)
    (hrs : ∀ e ∈ rs, ∃ g, e = DispatchEv.reload g)
    (hint : Interleave (dispatchTrace outcome) rs evs) :
    (dispatchTrace outcome).head? = some DispatchEv.snapshot ∧
    DispatchEv.snapshot ∉ dispatchOps outcome ∧
    ∃ snap : EngineRegs,
      ∀ u ∈ (dispRun init evs).uses,
        u = (RegKind.rlReg, snap.rl) ∨ u = (RegKind.boReg, snap.bo) := by
  refine ⟨rfl, snapshot_not_mem_dispatchOps outcome, ?_⟩
  obtain ⟨snap, hsnap⟩ := interleave_snapshot_run hint (dispatchOps outcome) rfl
    (snapshot_not_mem_dispatchOps outcome) hrs
    { engine := init, localRegs := Option.none, uses := [] } rfl
  refine ⟨snap, fun u hu => ?_⟩
  rcases hsnap u hu with hmem | hr | hb
  · simp at hmem
  · exact Or.inl hr
  · exact Or.inr hb

/-- Witness for `dispatch_snapshot_registry_consistency`: a successful
dispatch with one reload landing right after its snapshot. -/
theorem dispatch_snapshot_registry_consistency_witness :
    (dispatchTrace DispatchOutcome.statusNone).head? = some DispatchEv.snapshot ∧
    DispatchEv.snapshot ∉ dispatchOps DispatchOutcome.statusNone ∧
    ∃ snap : EngineRegs,
      ∀ u ∈ (dispRun ⟨1, 2⟩
          [DispatchEv.snapshot, DispatchEv.reload ⟨5, 6⟩, DispatchEv.useBo,
            DispatchEv.useRl, DispatchEv.useBo]).uses,
        u = (RegKind.rlReg, snap.rl) ∨ u = (RegKind.boReg, snap.bo) := by
  refine dispatch_snapshot_registry_consistency ⟨1, 2⟩ DispatchOutcome.statusNone
    [DispatchEv.reload ⟨5, 6⟩] _ ?_ ?_
  · intro e he
    simp only [List.mem_singleton] at he
    exact ⟨⟨5, 6⟩, he⟩
  · exact .left (.right (.left (.left (.left .nil))))

/-- C5 counterexample: it is NOT the case that every target list accepted
by `NewSelector` gives each index `j` pick probability
`weight_j / totalWeight`.  `cexTargets` is accepted (non-empty, total
weight 2 > 0), yet index 0 is picked with probability 0, not `-1/2`:
`prob[0] = -1` and `u ∈ [0,1)` is never below it. -/
theorem selector_distribution_cex :
    ¬ (∀ (targets : List TargetConfig) (j : ℕ),
        selectorAccepts targets = true → j < targets.length →
        pickProbOf targets j
          = some ((weightAt targets j : ℚ) / (totalWeight targets : ℚ))) := by
  intro hclaim
  have h := hclaim cexTargets 0 (by decide) (by decide)
  have hsel : NewSelector cexTargets = Except.ok cexSel := rfl
  have hval : pickProbOf cexTargets 0 = some (pickProb cexSel 0) := by
    simp [pickProbOf, hsel]
  have hp0 : cexSel.prob 0 = -1 := by
    norm_num [cexSel, voseLoop, voseStep, finalizeProb, initialVose, cexTargets,
      scaled0, weightAt, totalWeight, List.range_succ, Function.update]
  have hp1 : cexSel.prob 1 = 1 := by
    norm_num [cexSel, voseLoop, voseStep, finalizeProb, initialVose, cexTargets,
      scaled0, weightAt, totalWeight, List.range_succ, Function.update]
  have ha0 : cexSel.aliasIdx 0 = 1 := by
    norm_num [cexSel, voseLoop, voseStep, finalizeProb, initialVose, cexTargets,
      scaled0, weightAt, totalWeight, List.range_succ, Function.update]
  have ha1 : cexSel.aliasIdx 1 = 0 := by
    norm_num [cexSel, voseLoop, voseStep, finalizeProb, initialVose, cexTargets,
      scaled0, weightAt, totalWeight, List.range_succ, Function.update]
  have hprob : pickProb cexSel 0 = 0 := by
    have hn : cexSel.n = 2 := rfl
    unfold pickProb
    rw [hn]
    rw [Finset.sum_range_succ, Finset.sum_range_succ, Finset.sum_range_zero]
    simp only [voseTerm, hp0, hp1, ha0, ha1]
    norm_num [uniformChance]
  rw [hval, hprob] at h
  have hw : (weightAt cexTargets 0 : ℚ) = -1 := by norm_num [weightAt, cexTargets]
  have ht : (totalWeight cexTargets : ℚ) = 2 := by norm_num [totalWeight, cexTargets]
  rw [hw, ht] at h
  have : (0 : ℚ) = -1 / 2 := Option.some.inj h
  norm_num at this

theorem filter_not_length {α : Type} (p : α → Prop) [DecidablePred p]
    (l : List α) :
    (l.filter (fun i => p i)).length + (l.filter (fun i => ¬ p i)).length
      = l.length := by
  have h := List.length_eq_length_filter_add (l := l) (fun i => decide (p i))
  have hfun : (fun i => decide (¬ p i)) = (fun i => ! decide (p i)) := by
    funext i
    simp [decide_not]
  show (l.filter (fun i => decide (p i))).length
      + (l.filter (fun i => decide (¬ p i))).length = l.length
  rw [hfun]
  omega

theorem initialVose_active {targets : List TargetConfig} {i : ℕ}
    (hi : i < targets.length) :
    i ∈ (initialVose targets).small ∨ i ∈ (initialVose targets).large := by
  unfold initialVose
  simp only [List.mem_reverse, List.mem_filter, List.mem_range,
    decide_eq_true_eq]
  by_cases h : scaled0 targets i < 1
  · exact Or.inl ⟨hi, by simpa using h⟩
  · exact Or.inr ⟨hi, by simpa using h⟩

theorem initialVose_inv (targets : List TargetConfig) :
    VoseInv targets.length (scaled0 targets) (initialVose targets) := by
  constructor
  · -- nodup
    unfold initialVose
    simp only []
    apply List.Nodup.append
    · exact List.nodup_reverse.mpr ((List.nodup_range _).filter _)
    · exact List.nodup_reverse.mpr ((List.nodup_range _).filter _)
    · intro a ha hb
      simp only [List.mem_reverse, List.mem_filter, decide_eq_true_eq] at ha hb
      exact absurd ha.2 (by simpa using hb.2)
  · intro i hi
    unfold initialVose at hi
    simp only [List.mem_append, List.mem_reverse, List.mem_filter,
      List.mem_range] at hi
    rcases hi with h | h <;> exact h.1
  · intro i hi hact
    exact absurd (initialVose_active hi) hact
  · intro i hi
    unfold initialVose at hi
    simp only [List.mem_reverse, List.mem_filter, decide_eq_true_eq] at hi
    exact hi.2
  · intro i hi
    unfold initialVose at hi
    simp only [List.mem_reverse, List.mem_filter, decide_eq_true_eq] at hi
    exact not_lt.mp hi.2
  · intro j hj
    have hact := initialVose_active hj
    rw [if_pos hact]
    have hzero : procMass targets.length (initialVose targets) j = 0 := by
      unfold procMass
      apply Finset.sum_eq_zero
      intro i hi
      rw [if_pos (initialVose_active (Finset.mem_range.mp hi))]
    rw [hzero]
    simp [initialVose]

theorem voseStep_fields (st : VoseSt) (l g : ℕ) (sr lr : List ℕ) :
    (voseStep st l g sr lr).scaled
        = Function.update st.scaled g (st.scaled g + st.scaled l - 1) ∧
    (voseStep st l g sr lr).prob = Function.update st.prob l (st.scaled l) ∧
    (voseStep st l g sr lr).aliasIdx = Function.update st.aliasIdx l g ∧
    (∀ i, (i ∈ (voseStep st l g sr lr).small ∨ i ∈ (voseStep st l g sr lr).large)
        ↔ (i = g ∨ i ∈ sr ∨ i ∈ lr)) := by
  unfold voseStep
  simp only []
  split_ifs with hclt
  · refine ⟨rfl, rfl, rfl, fun i => ?_⟩
    simp only [List.mem_cons]
    tauto
  · refine ⟨rfl, rfl, rfl, fun i => ?_⟩
    simp only [List.mem_cons]
    tauto

set_option maxHeartbeats 1600000 in
theorem voseStep_inv {n : ℕ} {s0 : ℕ → ℚ} {st : VoseSt} {l g : ℕ}
    {sr lr : List ℕ} (hsm : st.small = l :: sr) (hlg : st.large = g :: lr)
    (inv : VoseInv n s0 st) :
    VoseInv n s0 (voseStep st l g sr lr) := by
  obtain ⟨hsc2, hpr2, hal2, hact2⟩ := voseStep_fields st l g sr lr
  have hbranch : ((voseStep st l g sr lr).scaled g < 1 ∧
        (voseStep st l g sr lr).small = g :: sr ∧
        (voseStep st l g sr lr).large = lr) ∨
      (1 ≤ (voseStep st l g sr lr).scaled g ∧
        (voseStep st l g sr lr).small = sr ∧
        (voseStep st l g sr lr).large = g :: lr) := by
    unfold voseStep
    simp only []
    split_ifs with h
    · exact Or.inl ⟨h, rfl, rfl⟩
    · exact Or.inr ⟨not_lt.mp h, rfl, rfl⟩
  set st2 := voseStep st l g sr lr with hst2
  clear_value st2
  -- distinctness facts from the worklists being duplicate-free
  have hnd := inv.nodup
  rw [hsm, hlg] at hnd
  have hnd1 := List.nodup_cons.mp (show (l :: (sr ++ g :: lr)).Nodup from hnd)
  have hlnot : l ∉ sr ++ g :: lr := hnd1.1
  have hndtail : (sr ++ g :: lr).Nodup := hnd1.2
  have hlsr : l ∉ sr := fun h => hlnot (List.mem_append.mpr (Or.inl h))
  have hlg_ne : l ≠ g := fun h =>
    hlnot (List.mem_append.mpr (Or.inr (List.mem_cons.mpr (Or.inl h))))
  have hllr : l ∉ lr := fun h =>
    hlnot (List.mem_append.mpr (Or.inr (List.mem_cons.mpr (Or.inr h))))
  have hsrnd : sr.Nodup := hndtail.of_append_left
  have hglrnd : (g :: lr).Nodup := hndtail.of_append_right
  have hglr : g ∉ lr := (List.nodup_cons.mp hglrnd).1
  have hlrnd : lr.Nodup := (List.nodup_cons.mp hglrnd).2
  have hdisj : sr.Disjoint (g :: lr) := List.disjoint_of_nodup_append hndtail
  have hgsr : g ∉ sr := fun h => hdisj h (List.mem_cons.mpr (Or.inl rfl))
  have hlmem : l ∈ st.small ++ st.large :=
    List.mem_append.mpr (Or.inl (by rw [hsm]; exact List.mem_cons.mpr (Or.inl rfl)))
  have hgmem : g ∈ st.small ++ st.large :=
    List.mem_append.mpr (Or.inr (by rw [hlg]; exact List.mem_cons.mpr (Or.inl rfl)))
  have hln : l < n := inv.bound l hlmem
  have hgn : g < n := inv.bound g hgmem
  have hactl : l ∈ st.small ∨ l ∈ st.large := by
    rw [hsm]
    exact Or.inl (List.mem_cons.mpr (Or.inl rfl))
  have hactg : g ∈ st.small ∨ g ∈ st.large := by
    rw [hlg]
    exact Or.inr (List.mem_cons.mpr (Or.inl rfl))
  have hactiff : ∀ i, (i ∈ st.small ∨ i ∈ st.large)
      ↔ (i = l ∨ i = g ∨ i ∈ sr ∨ i ∈ lr) := by
    intro i
    rw [hsm, hlg]
    simp only [List.mem_cons]
    constructor
    · rintro ((h | h) | (h | h))
      · exact Or.inl h
      · exact Or.inr (Or.inr (Or.inl h))
      · exact Or.inr (Or.inl h)
      · exact Or.inr (Or.inr (Or.inr h))
    · rintro (h | h | h | h)
      · exact Or.inl (Or.inl h)
      · exact Or.inr (Or.inl h)
      · exact Or.inl (Or.inr h)
      · exact Or.inr (Or.inr h)
  have hlnact2 : ¬ (l ∈ st2.small ∨ l ∈ st2.large) := by
    rw [hact2]
    push_neg
    exact ⟨hlg_ne, hlsr, hllr⟩
  constructor
  · -- nodup
    rcases hbranch with ⟨_, h2s, h2l⟩ | ⟨_, h2s, h2l⟩
    · rw [h2s, h2l, List.cons_append]
      refine List.nodup_cons.mpr ⟨?_, ?_⟩
      · intro h
        rcases List.mem_append.mp h with h1 | h2
        · exact hgsr h1
        · exact hglr h2
      · exact List.Nodup.append hsrnd hlrnd
          (fun a ha hb => hdisj ha (List.mem_cons.mpr (Or.inr hb)))
    · rw [h2s, h2l]
      exact hndtail
  · -- bound
    intro i hi
    have : i = g ∨ i ∈ sr ∨ i ∈ lr := by
      rw [← hact2 i]
      simpa using hi
    rcases this with h | h | h
    · exact h ▸ hgn
    · exact inv.bound i (List.mem_append.mpr
        (Or.inl (by rw [hsm]; exact List.mem_cons.mpr (Or.inr h))))
    · exact inv.bound i (List.mem_append.mpr
        (Or.inr (by rw [hlg]; exact List.mem_cons.mpr (Or.inr h))))
  · -- aliasBound
    intro i hi hinact
    rw [hal2]
    by_cases hil : i = l
    · subst hil
      rw [Function.update_same]
      exact hgn
    · rw [Function.update_noteq hil]
      refine inv.aliasBound i hi ?_
      rw [hactiff]
      rw [hact2] at hinact
      exact fun h => h.elim hil hinact
  · -- smallLt
    intro i hi
    rcases hbranch with ⟨hlt, h2s, _⟩ | ⟨_, h2s, _⟩
    · rw [h2s] at hi
      rcases List.mem_cons.mp hi with he | hm
      · subst he
        exact hlt
      · have hig : i ≠ g := fun h => hgsr (by rw [← h]; exact hm)
        rw [hsc2, Function.update_noteq hig]
        exact inv.smallLt i (by rw [hsm]; exact List.mem_cons.mpr (Or.inr hm))
    · rw [h2s] at hi
      have hig : i ≠ g := fun h => hgsr (by rw [← h]; exact hi)
      rw [hsc2, Function.update_noteq hig]
      exact inv.smallLt i (by rw [hsm]; exact List.mem_cons.mpr (Or.inr hi))
  · -- largeGe
    intro i hi
    rcases hbranch with ⟨_, _, h2l⟩ | ⟨hge, _, h2l⟩
    · rw [h2l] at hi
      have hig : i ≠ g := fun h => hglr (by rw [← h]; exact hi)
      rw [hsc2, Function.update_noteq hig]
      exact inv.largeGe i (by rw [hlg]; exact List.mem_cons.mpr (Or.inr hi))
    · rw [h2l] at hi
      rcases List.mem_cons.mp hi with he | hm
      · subst he
        exact hge
      · have hig : i ≠ g := fun h => hglr (by rw [← h]; exact hm)
        rw [hsc2, Function.update_noteq hig]
        exact inv.largeGe i (by rw [hlg]; exact List.mem_cons.mpr (Or.inr hm))
  · -- mass
    intro j hj
    have hmass := inv.mass j hj
    have hscg : st2.scaled g = st.scaled g + st.scaled l - 1 := by
      rw [hsc2, Function.update_same]
    have hsum : procMass n st2 j
        = procMass n st j
          + (st.scaled l * (if l = j then 1 else 0)
             + (1 - st.scaled l) * (if g = j then 1 else 0)) := by
      unfold procMass
      have hlr2 : l ∈ Finset.range n := Finset.mem_range.mpr hln
      rw [← Finset.sum_erase_add _ _ hlr2, ← Finset.sum_erase_add _ _ hlr2]
      have hcongr : ∀ i ∈ (Finset.range n).erase l,
          (if i ∈ st2.small ∨ i ∈ st2.large then 0
           else voseTerm st2.prob st2.aliasIdx i j)
          = (if i ∈ st.small ∨ i ∈ st.large then 0
             else voseTerm st.prob st.aliasIdx i j) := by
        intro i hi
        have hil : i ≠ l := (Finset.mem_erase.mp hi).1
        have hiff : (i ∈ st2.small ∨ i ∈ st2.large)
            ↔ (i ∈ st.small ∨ i ∈ st.large) := by
          rw [hact2, hactiff]
          exact Iff.intro (fun h => Or.inr h) (fun h => h.elim (fun h1 => absurd h1 hil) id)
        by_cases hia : i ∈ st.small ∨ i ∈ st.large
        · rw [if_pos hia, if_pos (hiff.mpr hia)]
        · rw [if_neg hia, if_neg (fun h => hia (hiff.mp h))]
          unfold voseTerm
          rw [hpr2, hal2, Function.update_noteq hil, Function.update_noteq hil]
      rw [Finset.sum_congr rfl hcongr]
      have hterml : (if l ∈ st2.small ∨ l ∈ st2.large then 0
          else voseTerm st2.prob st2.aliasIdx l j)
          = st.scaled l * (if l = j then 1 else 0)
            + (1 - st.scaled l) * (if g = j then 1 else 0) := by
        rw [if_neg hlnact2]
        unfold voseTerm
        rw [hpr2, hal2, Function.update_same, Function.update_same]
      have htermold : (if l ∈ st.small ∨ l ∈ st.large then 0
          else voseTerm st.prob st.aliasIdx l j) = 0 := if_pos hactl
      rw [hterml, htermold]
      ring
    rw [hsum]
    by_cases hjl : j = l
    · subst hjl
      rw [if_neg hlnact2]
      rw [if_pos hactl] at hmass
      rw [if_pos rfl, if_neg (fun h => hlg_ne ((h : g = j).symm))]
      linarith
    · by_cases hjg : j = g
      · subst hjg
        have hpos2 : j ∈ st2.small ∨ j ∈ st2.large := by
          rw [hact2]
          exact Or.inl rfl
        rw [if_pos hpos2, hscg]
        rw [if_pos hactg] at hmass
        rw [if_neg (fun h => hjl ((h : l = j).symm)), if_pos rfl]
        linarith
      · have hiff : (j ∈ st2.small ∨ j ∈ st2.large)
            ↔ (j ∈ st.small ∨ j ∈ st.large) := by
          rw [hact2, hactiff]
          exact Iff.intro (fun h => Or.inr h) (fun h => h.elim (fun h1 => absurd h1 hjl) id)
        have hscj : st2.scaled j = st.scaled j := by
          rw [hsc2, Function.update_noteq hjg]
        rw [if_neg (fun h => hjl ((h : l = j).symm)),
          if_neg (fun h => hjg ((h : g = j).symm))]
        by_cases hja : j ∈ st.small ∨ j ∈ st.large
        · rw [if_pos (hiff.mpr hja), hscj]
          rw [if_pos hja] at hmass
          linarith
        · rw [if_neg (fun h => hja (hiff.mp h))]
          rw [if_neg hja] at hmass
          linarith

/-- Membership in the worklists before a step, spelled out. -/
theorem voseActive_iff {st : VoseSt} {l g : ℕ} {sr lr : List ℕ}
    (hsm : st.small = l :: sr) (hlg : st.large = g :: lr) (i : ℕ) :
    (i ∈ st.small ∨ i ∈ st.large) ↔ (i = l ∨ i = g ∨ i ∈ sr ∨ i ∈ lr) := by
  rw [hsm, hlg]
  simp only [List.mem_cons]
  constructor
  · rintro ((h | h) | (h | h))
    · exact Or.inl h
    · exact Or.inr (Or.inr (Or.inl h))
    · exact Or.inr (Or.inl h)
    · exact Or.inr (Or.inr (Or.inr h))
  · rintro (h | h | h | h)
    · exact Or.inl (Or.inl h)
    · exact Or.inr (Or.inl h)
    · exact Or.inl (Or.inr h)
    · exact Or.inr (Or.inr h)

/-- One pairing step keeps the sign information: every slot still on a
worklist holds a nonnegative scaled weight, every retired slot holds a
probability in `[0,1]`. -/
theorem voseStep_pos {n : ℕ} {s0 : ℕ → ℚ} {st : VoseSt} {l g : ℕ}
    {sr lr : List ℕ} (hsm : st.small = l :: sr) (hlg : st.large = g :: lr)
    (inv : VoseInv n s0 st) (pos : VosePos n st) :
    VosePos n (voseStep st l g sr lr) := by
  obtain ⟨hsc2, hpr2, hal2, hact2⟩ := voseStep_fields st l g sr lr
  set st2 := voseStep st l g sr lr with hst2
  clear_value st2
  have hnd := inv.nodup
  rw [hsm, hlg] at hnd
  have hndtail : (sr ++ g :: lr).Nodup :=
    (List.nodup_cons.mp (show (l :: (sr ++ g :: lr)).Nodup from hnd)).2
  have hdisj : sr.Disjoint (g :: lr) := List.disjoint_of_nodup_append hndtail
  have hgsr : g ∉ sr := fun h => hdisj h (List.mem_cons.mpr (Or.inl rfl))
  have hglr : g ∉ lr := (List.nodup_cons.mp hndtail.of_append_right).1
  have hactl : l ∈ st.small ∨ l ∈ st.large := by
    rw [hsm]
    exact Or.inl (List.mem_cons.mpr (Or.inl rfl))
  have hmeml : l ∈ st.small := by
    rw [hsm]
    exact List.mem_cons.mpr (Or.inl rfl)
  have hmemg : g ∈ st.large := by
    rw [hlg]
    exact List.mem_cons.mpr (Or.inl rfl)
  have hscl0 : 0 ≤ st.scaled l := pos.scaledNonneg l hactl
  have hscl1 : st.scaled l < 1 := inv.smallLt l hmeml
  have hscg1 : 1 ≤ st.scaled g := inv.largeGe g hmemg
  constructor
  · intro i hi
    rw [hact2] at hi
    rcases hi with rfl | hi | hi
    · rw [hsc2, Function.update_same]
      linarith
    · have hig : i ≠ g := fun h => hgsr (by rw [← h]; exact hi)
      rw [hsc2, Function.update_noteq hig]
      exact pos.scaledNonneg i
        ((voseActive_iff hsm hlg i).mpr (Or.inr (Or.inr (Or.inl hi))))
    · have hig : i ≠ g := fun h => hglr (by rw [← h]; exact hi)
      rw [hsc2, Function.update_noteq hig]
      exact pos.scaledNonneg i
        ((voseActive_iff hsm hlg i).mpr (Or.inr (Or.inr (Or.inr hi))))
  · intro i hin hinact
    by_cases hil : i = l
    · subst hil
      rw [hpr2, Function.update_same]
      exact ⟨hscl0, le_of_lt hscl1⟩
    · rw [hpr2, Function.update_noteq hil]
      refine pos.probRange i hin ?_
      rw [voseActive_iff hsm hlg]
      rw [hact2] at hinact
      push_neg at hinact ⊢
      exact ⟨hil, hinact.1, hinact.2.1, hinact.2.2⟩

/-- One pairing step shrinks the combined worklist length by exactly one. -/
theorem voseStep_lengths (st : VoseSt) (l g : ℕ) (sr lr : List ℕ) :
    (voseStep st l g sr lr).small.length + (voseStep st l g sr lr).large.length
      = sr.length + lr.length + 1 := by
  unfold voseStep
  simp only []
  split_ifs
  · show (g :: sr).length + lr.length = sr.length + lr.length + 1
    simp only [List.length_cons]
    omega
  · show sr.length + (g :: lr).length = sr.length + lr.length + 1
    simp only [List.length_cons]
    omega

/-- The pairing loop preserves both the bookkeeping invariant and the sign
information, for any amount of fuel. -/
theorem voseLoop_inv {n : ℕ} {s0 : ℕ → ℚ} :
    ∀ (fuel : ℕ) (st : VoseSt), VoseInv n s0 st → VosePos n st →
      VoseInv n s0 (voseLoop fuel st) ∧ VosePos n (voseLoop fuel st) := by
  intro fuel
  induction fuel with
  | zero =>
    intro st h1 h2
    exact ⟨h1, h2⟩
  | succ f ih =>
    intro st h1 h2
    rcases hsm : st.small with _ | ⟨l, sr⟩
    · have hv : voseLoop (f + 1) st = st := by
        conv_lhs => rw [voseLoop]
        rw [hsm]
      rw [hv]
      exact ⟨h1, h2⟩
    · rcases hlg : st.large with _ | ⟨g, lr⟩
      · have hv : voseLoop (f + 1) st = st := by
          conv_lhs => rw [voseLoop]
          rw [hsm, hlg]
        rw [hv]
        exact ⟨h1, h2⟩
      · have hv : voseLoop (f + 1) st = voseLoop f (voseStep st l g sr lr) := by
          conv_lhs => rw [voseLoop]
          rw [hsm, hlg]
        rw [hv]
        exact ih _ (voseStep_inv hsm hlg h1) (voseStep_pos hsm hlg h1 h2)

/-- Fuel adequacy: with fuel at least the combined worklist length minus
one, the loop runs until one worklist is empty — exactly the Go loop
condition `len(small) > 0 && len(large) > 0` turning false. -/
theorem voseLoop_done :
    ∀ (fuel : ℕ) (st : VoseSt),
      st.small.length + st.large.length ≤ fuel + 1 →
      (voseLoop fuel st).small = [] ∨ (voseLoop fuel st).large = [] := by
  intro fuel
  induction fuel with
  | zero =>
    intro st h
    rcases hsm : st.small with _ | ⟨l, sr⟩
    · left
      exact hsm
    · right
      show st.large = []
      rw [hsm] at h
      simp only [List.length_cons] at h
      have hlz : st.large.length = 0 := by omega
      exact List.length_eq_zero.mp hlz
  | succ f ih =>
    intro st h
    rcases hsm : st.small with _ | ⟨l, sr⟩
    · have hv : voseLoop (f + 1) st = st := by
        conv_lhs => rw [voseLoop]
        rw [hsm]
      rw [hv]
      exact Or.inl hsm
    · rcases hlg : st.large with _ | ⟨g, lr⟩
      · have hv : voseLoop (f + 1) st = st := by
          conv_lhs => rw [voseLoop]
          rw [hsm, hlg]
        rw [hv]
        exact Or.inr hlg
      · have hv : voseLoop (f + 1) st = voseLoop f (voseStep st l g sr lr) := by
          conv_lhs => rw [voseLoop]
          rw [hsm, hlg]
        rw [hv]
        apply ih
        rw [voseStep_lengths]
        rw [hsm, hlg] at h
        simp only [List.length_cons] at h
        omega

/-- The two initial worklists partition `range n`, so their lengths sum
to `n`. -/
theorem initialVose_lengths (targets : List TargetConfig) :
    (initialVose targets).small.length + (initialVose targets).large.length
      = targets.length := by
  unfold initialVose
  simp only [List.length_reverse]
  have h := filter_not_length (fun i => scaled0 targets i < 1)
    (List.range targets.length)
  simpa [List.length_range] using h

theorem weightAt_nonneg {targets : List TargetConfig}
    (hw : ∀ t ∈ targets, 0 ≤ t.weight) (i : ℕ) : 0 ≤ weightAt targets i := by
  unfold weightAt
  cases h : targets.get? i with
  | none => simp
  | some t =>
    show 0 ≤ t.weight
    exact hw t (List.get?_mem h)

/-- With nonnegative weights and positive total, the initial state has the
sign information. -/
theorem initialVose_pos (targets : List TargetConfig)
    (hw : ∀ t ∈ targets, 0 ≤ t.weight) (hW : 0 < totalWeight targets) :
    VosePos targets.length (initialVose targets) := by
  constructor
  · intro i _
    show 0 ≤ scaled0 targets i
    unfold scaled0
    apply div_nonneg
    · apply mul_nonneg
      · exact_mod_cast weightAt_nonneg hw i
      · positivity
    · exact_mod_cast le_of_lt hW
  · intro i hi hact
    exact absurd (initialVose_active hi) hact

/-- Summing `weightAt` over all positions recovers the total weight. -/
theorem weightAt_sum_int (targets : List TargetConfig) :
    ∑ j ∈ Finset.range targets.length, weightAt targets j
      = totalWeight targets := by
  induction targets with
  | nil => simp [totalWeight]
  | cons t rest ih =>
    rw [List.length_cons, Finset.sum_range_succ']
    have hshift : ∑ i ∈ Finset.range rest.length, weightAt (t :: rest) (i + 1)
        = ∑ i ∈ Finset.range rest.length, weightAt rest i :=
      Finset.sum_congr rfl (fun i _ => rfl)
    rw [hshift, ih]
    show totalWeight rest + t.weight = totalWeight (t :: rest)
    simp only [totalWeight, List.map_cons, List.sum_cons]
    ring

theorem weightAt_sum (targets : List TargetConfig) :
    ∑ j ∈ Finset.range targets.length, (weightAt targets j : ℚ)
      = (totalWeight targets : ℚ) := by
  rw [← weightAt_sum_int targets]
  push_cast
  ring

/-- The scaled weights sum to exactly `n` — the mass the alias table must
distribute. -/
theorem scaled0_sum (targets : List TargetConfig)
    (hW : totalWeight targets ≠ 0) :
    ∑ j ∈ Finset.range targets.length, scaled0 targets j
      = (targets.length : ℚ) := by
  have hWq : (totalWeight targets : ℚ) ≠ 0 := Int.cast_ne_zero.mpr hW
  unfold scaled0
  rw [← Finset.sum_div, ← Finset.sum_mul, weightAt_sum]
  rw [mul_comm, mul_div_assoc, div_self hWq, mul_one]

/-- Each retired column routes total probability 1 across the indices. -/
theorem voseTerm_row_sum {n : ℕ} (prob : ℕ → ℚ) (aliasIdx : ℕ → ℕ) {i : ℕ}
    (hi : i < n) (ha : aliasIdx i < n) :
    ∑ j ∈ Finset.range n, voseTerm prob aliasIdx i j = 1 := by
  unfold voseTerm
  rw [Finset.sum_add_distrib, ← Finset.mul_sum, ← Finset.mul_sum]
  rw [Finset.sum_ite_eq, Finset.sum_ite_eq]
  rw [if_pos (Finset.mem_range.mpr hi), if_pos (Finset.mem_range.mpr ha)]
  ring

/-- Total processed mass equals the number of retired columns. -/
theorem procMass_total {n : ℕ} {st : VoseSt}
    (hab : ∀ i, i < n → ¬(i ∈ st.small ∨ i ∈ st.large) → st.aliasIdx i < n) :
    ∑ j ∈ Finset.range n, procMass n st j
      = ∑ i ∈ Finset.range n,
          (if i ∈ st.small ∨ i ∈ st.large then 0 else 1) := by
  unfold procMass
  rw [Finset.sum_comm]
  apply Finset.sum_congr rfl
  intro i hi
  by_cases hact : i ∈ st.small ∨ i ∈ st.large
  · rw [if_pos hact]
    apply Finset.sum_eq_zero
    intro j _
    rw [if_pos hact]
  · rw [if_neg hact]
    have hc : ∀ j ∈ Finset.range n,
        (if i ∈ st.small ∨ i ∈ st.large then 0
         else voseTerm st.prob st.aliasIdx i j)
        = voseTerm st.prob st.aliasIdx i j := fun j _ => if_neg hact
    rw [Finset.sum_congr rfl hc]
    exact voseTerm_row_sum st.prob st.aliasIdx (Finset.mem_range.mp hi)
      (hab i (Finset.mem_range.mp hi) hact)

/-- Endgame: when one worklist is empty and the scaled weights summed to
`n`, exact arithmetic forces every still-active slot to hold exactly 1. -/
theorem done_scaled_one {n : ℕ} {s0 : ℕ → ℚ} {st : VoseSt}
    (inv : VoseInv n s0 st)
    (hdone : st.small = [] ∨ st.large = [])
    (hsum : ∑ j ∈ Finset.range n, s0 j = (n : ℚ)) :
    ∀ i, (i ∈ st.small ∨ i ∈ st.large) → st.scaled i = 1 := by
  have htot : ∑ j ∈ Finset.range n,
      (procMass n st j
       + (if j ∈ st.small ∨ j ∈ st.large then st.scaled j else 0))
      = (n : ℚ) := by
    rw [Finset.sum_congr rfl (fun j hj => inv.mass j (Finset.mem_range.mp hj))]
    exact hsum
  rw [Finset.sum_add_distrib, procMass_total inv.aliasBound] at htot
  have hcard : ∑ i ∈ Finset.range n,
      ((if i ∈ st.small ∨ i ∈ st.large then (0:ℚ) else 1)
       + (if i ∈ st.small ∨ i ∈ st.large then 1 else 0)) = (n : ℚ) := by
    have hc : ∀ i ∈ Finset.range n,
        ((if i ∈ st.small ∨ i ∈ st.large then (0:ℚ) else 1)
         + (if i ∈ st.small ∨ i ∈ st.large then 1 else 0)) = 1 := by
      intro i _
      split_ifs <;> ring
    rw [Finset.sum_congr rfl hc]
    simp
  rw [Finset.sum_add_distrib] at hcard
  have hzero : ∑ j ∈ Finset.range n,
      (if j ∈ st.small ∨ j ∈ st.large then st.scaled j - 1 else 0) = 0 := by
    have hsplit : ∀ j ∈ Finset.range n,
        (if j ∈ st.small ∨ j ∈ st.large then st.scaled j - 1 else 0)
        = (if j ∈ st.small ∨ j ∈ st.large then st.scaled j else 0)
          - (if j ∈ st.small ∨ j ∈ st.large then (1:ℚ) else 0) := by
      intro j _
      split_ifs <;> ring
    rw [Finset.sum_congr rfl hsplit, Finset.sum_sub_distrib]
    have hBC : ∑ j ∈ Finset.range n,
        (if j ∈ st.small ∨ j ∈ st.large then st.scaled j else 0)
        = ∑ j ∈ Finset.range n,
            (if j ∈ st.small ∨ j ∈ st.large then (1:ℚ) else 0) := by
      linarith
    rw [hBC, sub_self]
  intro i hact
  have hin : i ∈ Finset.range n :=
    Finset.mem_range.mpr (inv.bound i (List.mem_append.mpr hact))
  rcases hdone with hse | hle
  · have hnn : ∀ j ∈ Finset.range n,
        0 ≤ (if j ∈ st.small ∨ j ∈ st.large then st.scaled j - 1 else 0) := by
      intro j _
      split_ifs with hj
      · rcases hj with hj | hj
        · rw [hse] at hj
          exact absurd hj (List.not_mem_nil j)
        · linarith [inv.largeGe j hj]
      · exact le_refl 0
    have hterm := (Finset.sum_eq_zero_iff_of_nonneg hnn).mp hzero i hin
    rw [if_pos hact] at hterm
    linarith
  · have hnn : ∀ j ∈ Finset.range n,
        0 ≤ (-(if j ∈ st.small ∨ j ∈ st.large then st.scaled j - 1 else 0)) := by
      intro j _
      rw [neg_nonneg]
      split_ifs with hj
      · rcases hj with hj | hj
        · linarith [inv.smallLt j hj]
        · rw [hle] at hj
          exact absurd hj (List.not_mem_nil j)
      · exact le_refl 0
    have hzero2 : ∑ j ∈ Finset.range n,
        (-(if j ∈ st.small ∨ j ∈ st.large then st.scaled j - 1 else 0)) = 0 := by
      rw [Finset.sum_neg_distrib, hzero, neg_zero]
    have hterm := (Finset.sum_eq_zero_iff_of_nonneg hnn).mp hzero2 i hin
    rw [if_pos hact] at hterm
    have hterm2 : st.scaled i - 1 = 0 := by linarith [neg_eq_zero.mp hterm]
    linarith

/-- C5 (amended): for every target list `NewSelector` accepts in which all
weights are nonnegative, the two-stage pick lands on index `j` with
probability exactly `weight_j / totalWeight`. -/
theorem selector_distribution_of_nonneg (ts : List TargetConfig)
    (sel : Selector) (hok : NewSelector ts = Except.ok sel)
    (hw : ∀ t ∈ ts, 0 ≤ t.weight) :
    ∀ j, j < sel.n →
      pickProb sel j = (weightAt ts j : ℚ) / (totalWeight ts : ℚ) := by
  have hparse : ts.length ≠ 0 ∧ 0 < totalWeight ts ∧
      sel = { targets := ts
              n := ts.length
              prob := (finalizeProb (voseLoop ts.length (initialVose ts))).prob
              aliasIdx :=
                (finalizeProb (voseLoop ts.length (initialVose ts))).aliasIdx } := by
    unfold NewSelector at hok
    by_cases h1 : ts.length = 0
    · rw [if_pos h1] at hok
      exact absurd hok (by simp)
    · rw [if_neg h1] at hok
      by_cases h2 : totalWeight ts ≤ 0
      · rw [if_pos h2] at hok
        exact absurd hok (by simp)
      · rw [if_neg h2] at hok
        exact ⟨h1, not_le.mp h2, (Except.ok.inj hok).symm⟩
  obtain ⟨hn0, hW, hself⟩ := hparse
  subst hself
  intro j hj
  have hjn : j < ts.length := hj
  obtain ⟨hinv, hpos⟩ := voseLoop_inv ts.length (initialVose ts)
    (initialVose_inv ts) (initialVose_pos ts hw hW)
  have hdone : (voseLoop ts.length (initialVose ts)).small = []
      ∨ (voseLoop ts.length (initialVose ts)).large = [] := by
    apply voseLoop_done
    rw [initialVose_lengths]
    omega
  set stf := voseLoop ts.length (initialVose ts) with hstf
  have hone : ∀ i, (i ∈ stf.small ∨ i ∈ stf.large) → stf.scaled i = 1 :=
    done_scaled_one hinv hdone (scaled0_sum ts (ne_of_gt hW))
  have hterm : ∀ i ∈ Finset.range ts.length,
      voseTerm (fun i => uniformChance ((finalizeProb stf).prob i))
          (finalizeProb stf).aliasIdx i j
        = (if i ∈ stf.small ∨ i ∈ stf.large
           then (if i = j then 1 else 0)
           else voseTerm stf.prob stf.aliasIdx i j) := by
    intro i hi
    have hiN : i < ts.length := Finset.mem_range.mp hi
    by_cases hact : i ∈ stf.small ∨ i ∈ stf.large
    · rw [if_pos hact]
      have hp1 : (finalizeProb stf).prob i = 1 := by
        show (if i ∈ stf.large ∨ i ∈ stf.small then (1:ℚ) else stf.prob i) = 1
        rcases hact with h | h
        · exact if_pos (Or.inr h)
        · exact if_pos (Or.inl h)
      have hu1 : uniformChance ((finalizeProb stf).prob i) = 1 := by
        rw [hp1]
        norm_num [uniformChance]
      unfold voseTerm
      simp only []
      rw [hu1]
      ring
    · rw [if_neg hact]
      have hpr : (finalizeProb stf).prob i = stf.prob i := by
        show (if i ∈ stf.large ∨ i ∈ stf.small then (1:ℚ) else stf.prob i)
          = stf.prob i
        rw [if_neg]
        intro h
        exact hact (h.elim Or.inr Or.inl)
      have hrange := hpos.probRange i hiN hact
      have hu : uniformChance ((finalizeProb stf).prob i) = stf.prob i := by
        rw [hpr]
        unfold uniformChance
        rw [min_eq_right hrange.2, max_eq_right hrange.1]
      have hal : (finalizeProb stf).aliasIdx i = stf.aliasIdx i := rfl
      unfold voseTerm
      simp only []
      rw [hu, hal]
  have hsum2 : ∑ i ∈ Finset.range ts.length,
      voseTerm (fun i => uniformChance ((finalizeProb stf).prob i))
        (finalizeProb stf).aliasIdx i j
      = scaled0 ts j := by
    rw [Finset.sum_congr rfl hterm]
    have hsplit : ∀ i ∈ Finset.range ts.length,
        (if i ∈ stf.small ∨ i ∈ stf.large then (if i = j then (1:ℚ) else 0)
         else voseTerm stf.prob stf.aliasIdx i j)
        = (if i ∈ stf.small ∨ i ∈ stf.large then 0
           else voseTerm stf.prob stf.aliasIdx i j)
          + (if i = j
             then (if j ∈ stf.small ∨ j ∈ stf.large then (1:ℚ) else 0)
             else 0) := by
      intro i _
      by_cases hij : i = j
      · subst hij
        split_ifs <;> ring
      · simp only [if_neg hij]
        split_ifs <;> ring
    rw [Finset.sum_congr rfl hsplit, Finset.sum_add_distrib]
    rw [Finset.sum_ite_eq', if_pos (Finset.mem_range.mpr hjn)]
    have hmassj := hinv.mass j hjn
    unfold procMass at hmassj
    by_cases hact : j ∈ stf.small ∨ j ∈ stf.large
    · rw [if_pos hact]
      rw [if_pos hact, hone j hact] at hmassj
      linarith
    · rw [if_neg hact]
      rw [if_neg hact] at hmassj
      linarith
  show (∑ i ∈ Finset.range ts.length,
      voseTerm (fun i => uniformChance ((finalizeProb stf).prob i))
        (finalizeProb stf).aliasIdx i j) / (ts.length : ℚ)
    = (weightAt ts j : ℚ) / (totalWeight ts : ℚ)
  rw [hsum2]
  unfold scaled0
  have hn : (ts.length : ℚ) ≠ 0 := Nat.cast_ne_zero.mpr hn0
  have hWq : (totalWeight ts : ℚ) ≠ 0 := Int.cast_ne_zero.mpr (ne_of_gt hW)
  field_simp
  ring

/-- Witness for the amended C5 theorem: weights `[1,3,6]` are accepted and
index 2 is picked with probability `6/10`. -/
theorem selector_distribution_of_nonneg_witness :
    NewSelector okTargets = Except.ok okSel
    ∧ (∀ t ∈ okTargets, 0 ≤ t.weight)
    ∧ 2 < okSel.n
    ∧ pickProb okSel 2
        = (weightAt okTargets 2 : ℚ) / (totalWeight okTargets : ℚ) :=
  ⟨rfl, by decide, by decide,
    selector_distribution_of_nonneg okTargets okSel rfl (by decide) 2 (by decide)⟩

end Sendit
